import Mathlib

set_option maxRecDepth 8000

/-!
Verification of the memory-builder core: the inheritance sorter, SKILL.md
injection and input validation of `OutputGenerator`, and the reflection
tree walker / latest-entry resolver / batch fetcher of `Reflection`.
All definitions are shallow embeddings of the JavaScript source.
-/

/-! ## Inheritance sorter (`OutputGenerator.#generateSortedOutput`) -/

/-- A content unit of the inheritance graph.  The `inherits` field models the
JavaScript property `inherits`, which the sorter uses only when it is an array
(`Array.isArray` guard); `none` models an absent or non-array value. -/
structure MUnit where
  inherits : Option (List String)
deriving DecidableEq

/-- Association lookup modelling JavaScript property access `data[k]` on an
object represented as an insertion-ordered list of key/value pairs. -/
def lookupU : List (String × MUnit) → String → Option MUnit
  | [], _ => none
  | (k', u) :: t, k => if k' = k then some u else lookupU t k

/-- `Object.keys(data)`: the keys in insertion order. -/
def keysOf (data : List (String × MUnit)) : List String := data.map Prod.fst

/-- The `inherits` list of unit `k`: `data[k]?.inherits` when it is an array,
otherwise `[]` (the `Array.isArray` guard in the source skips it). -/
def inheritsOf (data : List (String × MUnit)) (k : String) : List String :=
  match lookupU data k with
  | some u => u.inherits.getD []
  | none => []

/-- `inherits.filter(p => keys.includes(p))`: the listed parents of `k` that
are present in the input set. -/
def presentParents (data : List (String × MUnit)) (k : String) : List String :=
  (inheritsOf data k).filter (fun p => decide (p ∈ keysOf data))

/-- State of the depth-first traversal in `#generateSortedOutput`: the
`visited` set and the accumulated `result` array. -/
structure SortState where
  visited : List String
  result : List String
deriving DecidableEq

/-- The recursive `visit` closure of `#generateSortedOutput`.  `fuel` bounds
the recursion depth (the JavaScript recursion is guarded by the `visited`
set; the top-level entry point passes `data.length + 1`, which the lemmas
below show is never exhausted). -/
def visit (data : List (String × MUnit)) : Nat → String → SortState → SortState
  | 0, _, s => s
  | fuel + 1, k, s =>
    if k ∈ s.visited then s
    else
      let s1 : SortState := ⟨k :: s.visited, s.result⟩
      let s2 := (presentParents data k).foldl (fun acc p => visit data fuel p acc) s1
      ⟨s2.visited, s2.result ++ [k]⟩

/-- `inherits.filter(...).forEach(visit)`: folding `visit` over a parent list. -/
def visitList (data : List (String × MUnit)) (fuel : Nat)
    (ps : List String) (s : SortState) : SortState :=
  ps.foldl (fun acc p => visit data fuel p acc) s

/-- `keys.forEach(visit)` starting from an empty visited set and result. -/
def runVisit (data : List (String × MUnit)) : SortState :=
  (keysOf data).foldl (fun s k => visit data (data.length + 1) k s) ⟨[], []⟩

/-- `result.reverse()`: the key order of the returned insertion-ordered
mapping of `#generateSortedOutput`. -/
def sortedKeys (data : List (String × MUnit)) : List String :=
  (runVisit data).result.reverse

/-- `Object.fromEntries(result.reverse().map(k => [k, data[k]]))`: the
`sorted` object built by `#generateSortedOutput`, as an insertion-ordered
pair list. -/
def generateSortedOutput (data : List (String × MUnit)) : List (String × MUnit) :=
  (sortedKeys data).map (fun k => (k, (lookupU data k).getD ⟨none⟩))

/-- One inheritance step: `p` is a listed parent of `k` present in the input. -/
def InhRel (data : List (String × MUnit)) (k p : String) : Prop :=
  p ∈ presentParents data k

instance (data : List (String × MUnit)) (k p : String) : Decidable (InhRel data k p) :=
  inferInstanceAs (Decidable (p ∈ presentParents data k))

/-- The inheritance graph restricted to present parents has no cycle. -/
def Acyclic (data : List (String × MUnit)) : Prop :=
  ∀ k, ¬ Relation.TransGen (InhRel data) k k

/-- A decidable certificate of acyclicity: a list that ranks every present
parent strictly below its child. -/
def parentRanked (data : List (String × MUnit)) (L : List String) : Prop :=
  ∀ k ∈ keysOf data, ∀ p ∈ presentParents data k, L.indexOf p < L.indexOf k

/-- The diamond graph used by several witnesses: `d` inherits `b` and `c`,
which both inherit `a`. -/
def diamondData : List (String × MUnit) :=
  [("d", ⟨some ["b", "c"]⟩), ("b", ⟨some ["a"]⟩), ("c", ⟨some ["a"]⟩), ("a", ⟨none⟩)]

example : sortedKeys diamondData = ["d", "c", "b", "a"] := by decide

instance (data : List (String × MUnit)) (L : List String) :
    Decidable (parentRanked data L) :=
  inferInstanceAs (Decidable (∀ k ∈ keysOf data, ∀ p ∈ presentParents data k,
    L.indexOf p < L.indexOf k))

example : parentRanked diamondData ["a", "b", "c", "d"] := by decide

/-! ### Basic facts about `visit` -/

lemma lookupU_mem {data : List (String × MUnit)} {k : String} {u : MUnit}
    (h : lookupU data k = some u) : k ∈ keysOf data := by
  induction data with
  | nil => simp [lookupU] at h
  | cons hd t ih =>
    obtain ⟨k', u'⟩ := hd
    by_cases hk : k' = k
    · subst hk; exact List.mem_cons_self _ _
    · rw [lookupU, if_neg hk] at h
      exact List.mem_cons_of_mem _ (ih h)

lemma presentParents_sub_keys {data : List (String × MUnit)} {k p : String}
    (h : p ∈ presentParents data k) : p ∈ keysOf data := by
  have := List.of_mem_filter h
  simpa using this

lemma inhRel_left_mem {data : List (String × MUnit)} {k p : String}
    (h : InhRel data k p) : k ∈ keysOf data := by
  unfold InhRel presentParents inheritsOf at h
  rcases hl : lookupU data k with _ | u
  · rw [hl] at h; simp at h
  · exact lookupU_mem hl

lemma transGen_indexOf {data : List (String × MUnit)} {L : List String}
    (hr : parentRanked data L) {a b : String}
    (h : Relation.TransGen (InhRel data) a b) : L.indexOf b < L.indexOf a := by
  induction h with
  | single hab => exact hr _ (inhRel_left_mem hab) _ hab
  | tail _ hbc ih => exact lt_trans (hr _ (inhRel_left_mem hbc) _ hbc) ih

lemma acyclic_of_parentRanked (data : List (String × MUnit)) (L : List String)
    (hr : parentRanked data L) : Acyclic data := by
  intro k hcyc
  exact lt_irrefl _ (transGen_indexOf hr hcyc)

lemma visit_of_mem {data : List (String × MUnit)} {fuel : Nat} {k : String}
    {s : SortState} (h : k ∈ s.visited) : visit data fuel k s = s := by
  cases fuel with
  | zero => rfl
  | succ n => simp [visit, h]

lemma visit_succ_of_not_mem {data : List (String × MUnit)} {fuel : Nat} {k : String}
    {s : SortState} (h : k ∉ s.visited) :
    visit data (fuel + 1) k s =
      ⟨(visitList data fuel (presentParents data k) ⟨k :: s.visited, s.result⟩).visited,
       (visitList data fuel (presentParents data k) ⟨k :: s.visited, s.result⟩).result ++ [k]⟩ := by
  simp [visit, h, visitList]

lemma visitList_nil {data : List (String × MUnit)} {fuel : Nat} {s : SortState} :
    visitList data fuel [] s = s := rfl

lemma visitList_cons {data : List (String × MUnit)} {fuel : Nat} {p : String}
    {t : List String} {s : SortState} :
    visitList data fuel (p :: t) s = visitList data fuel t (visit data fuel p s) := rfl

lemma visit_visited_mono (data : List (String × MUnit)) :
    ∀ fuel k s, s.visited ⊆ (visit data fuel k s).visited := by
  intro fuel
  induction fuel with
  | zero => intro k s x hx; exact hx
  | succ n ih =>
    have hlist : ∀ ps s, s.visited ⊆ (visitList data n ps s).visited := by
      intro ps
      induction ps with
      | nil => intro s x hx; exact hx
      | cons p t iht => intro s x hx; exact iht _ (ih p s hx)
    intro k s
    by_cases h : k ∈ s.visited
    · rw [visit_of_mem h]; exact fun x hx => hx
    · rw [visit_succ_of_not_mem h]
      intro x hx
      exact hlist _ ⟨k :: s.visited, s.result⟩ (List.mem_cons_of_mem _ hx)

lemma visitList_visited_mono (data : List (String × MUnit)) (fuel : Nat) :
    ∀ ps s, s.visited ⊆ (visitList data fuel ps s).visited := by
  intro ps
  induction ps with
  | nil => intro s x hx; exact hx
  | cons p t ih => intro s x hx; exact ih _ (visit_visited_mono data fuel p s hx)

lemma visit_result_mono (data : List (String × MUnit)) :
    ∀ fuel k s, ∀ x ∈ s.result, x ∈ (visit data fuel k s).result := by
  intro fuel
  induction fuel with
  | zero => intro k s x hx; exact hx
  | succ n ih =>
    have hlist : ∀ ps s, ∀ x ∈ s.result, x ∈ (visitList data n ps s).result := by
      intro ps
      induction ps with
      | nil => intro s x hx; exact hx
      | cons p t iht => intro s x hx; exact iht _ _ (ih p s x hx)
    intro k s x hx
    by_cases h : k ∈ s.visited
    · rw [visit_of_mem h]; exact hx
    · rw [visit_succ_of_not_mem h]
      exact List.mem_append_left _ (hlist _ ⟨k :: s.visited, s.result⟩ x hx)

lemma visitList_result_mono (data : List (String × MUnit)) (fuel : Nat) :
    ∀ ps s, ∀ x ∈ s.result, x ∈ (visitList data fuel ps s).result := by
  intro ps
  induction ps with
  | nil => intro s x hx; exact hx
  | cons p t ih => intro s x hx; exact ih _ x (visit_result_mono data fuel p s x hx)

lemma visit_self_visited {data : List (String × MUnit)} {fuel : Nat} {k : String}
    {s : SortState} (hf : 1 ≤ fuel) : k ∈ (visit data fuel k s).visited := by
  cases fuel with
  | zero => exact absurd hf (by simp)
  | succ n =>
    by_cases h : k ∈ s.visited
    · rw [visit_of_mem h]; exact h
    · rw [visit_succ_of_not_mem h]
      exact visitList_visited_mono data n _ ⟨k :: s.visited, s.result⟩ (List.mem_cons_self _ _)

/-- Every element the traversal marks visited is either already output or
still pending on the recursion stack. -/
def VisitedInv (s : SortState) (pending : List String) : Prop :=
  ∀ x ∈ s.visited, x ∈ s.result ∨ x ∈ pending

/-- Every element of the output array has been marked visited. -/
def ResultSubVisited (s : SortState) : Prop :=
  ∀ x ∈ s.result, x ∈ s.visited

lemma visit_inv (data : List (String × MUnit)) :
    ∀ fuel k s pending, VisitedInv s pending →
      VisitedInv (visit data fuel k s) pending := by
  intro fuel
  induction fuel with
  | zero => intro k s pending h; exact h
  | succ n ih =>
    have hlist : ∀ ps s pending, VisitedInv s pending →
        VisitedInv (visitList data n ps s) pending := by
      intro ps
      induction ps with
      | nil => intro s pending h; exact h
      | cons p t iht => intro s pending h; exact iht _ _ (ih p s pending h)
    intro k s pending h
    by_cases hk : k ∈ s.visited
    · rw [visit_of_mem hk]; exact h
    · rw [visit_succ_of_not_mem hk]
      have h1 : VisitedInv ⟨k :: s.visited, s.result⟩ (k :: pending) := by
        intro x hx
        rcases List.mem_cons.1 hx with rfl | hx'
        · exact Or.inr (List.mem_cons_self _ _)
        · rcases h x hx' with hr | hp
          · exact Or.inl hr
          · exact Or.inr (List.mem_cons_of_mem _ hp)
      have h2 := hlist (presentParents data k) ⟨k :: s.visited, s.result⟩ (k :: pending) h1
      intro x hx
      rcases h2 x hx with hr | hp
      · exact Or.inl (List.mem_append_left _ hr)
      · rcases List.mem_cons.1 hp with rfl | hp'
        · exact Or.inl (List.mem_append_right _ (List.mem_cons_self _ _))
        · exact Or.inr hp'

lemma visit_result_fresh (data : List (String × MUnit)) :
    ∀ fuel k s, ∀ x ∈ (visit data fuel k s).result, x ∈ s.result ∨ x ∉ s.visited := by
  intro fuel
  induction fuel with
  | zero => intro k s x hx; exact Or.inl hx
  | succ n ih =>
    have hlist : ∀ ps s, ∀ x ∈ (visitList data n ps s).result,
        x ∈ s.result ∨ x ∉ s.visited := by
      intro ps
      induction ps with
      | nil => intro s x hx; exact Or.inl hx
      | cons p t iht =>
        intro s x hx
        rcases iht (visit data n p s) x hx with hr | hv
        · rcases ih p s x hr with hr' | hv'
          · exact Or.inl hr'
          · exact Or.inr hv'
        · exact Or.inr (fun hm => hv (visit_visited_mono data n p s hm))
    intro k s x hx
    by_cases hk : k ∈ s.visited
    · rw [visit_of_mem hk] at hx; exact Or.inl hx
    · rw [visit_succ_of_not_mem hk] at hx
      rcases List.mem_append.1 hx with hx' | hx'
      · rcases hlist _ ⟨k :: s.visited, s.result⟩ x hx' with hr | hv
        · exact Or.inl hr
        · exact Or.inr (fun hm => hv (List.mem_cons_of_mem _ hm))
      · rcases List.mem_singleton.1 hx' with rfl
        exact Or.inr hk

lemma visitList_result_fresh (data : List (String × MUnit)) (fuel : Nat) :
    ∀ ps s, ∀ x ∈ (visitList data fuel ps s).result, x ∈ s.result ∨ x ∉ s.visited := by
  intro ps
  induction ps with
  | nil => intro s x hx; exact Or.inl hx
  | cons p t ih =>
    intro s x hx
    rcases ih (visit data fuel p s) x hx with hr | hv
    · rcases visit_result_fresh data fuel p s x hr with hr' | hv'
      · exact Or.inl hr'
      · exact Or.inr hv'
    · exact Or.inr (fun hm => hv (visit_visited_mono data fuel p s hm))

lemma visit_rsv_nodup (data : List (String × MUnit)) :
    ∀ fuel k s, ResultSubVisited s → s.result.Nodup →
      ResultSubVisited (visit data fuel k s) ∧ (visit data fuel k s).result.Nodup := by
  intro fuel
  induction fuel with
  | zero => intro k s h1 h2; exact ⟨h1, h2⟩
  | succ n ih =>
    have hlist : ∀ ps s, ResultSubVisited s → s.result.Nodup →
        ResultSubVisited (visitList data n ps s) ∧ (visitList data n ps s).result.Nodup := by
      intro ps
      induction ps with
      | nil => intro s h1 h2; exact ⟨h1, h2⟩
      | cons p t iht =>
        intro s h1 h2
        obtain ⟨h1', h2'⟩ := ih p s h1 h2
        exact iht _ h1' h2'
    intro k s h1 h2
    by_cases hk : k ∈ s.visited
    · rw [visit_of_mem hk]; exact ⟨h1, h2⟩
    · rw [visit_succ_of_not_mem hk]
      have hs1 : ResultSubVisited (⟨k :: s.visited, s.result⟩ : SortState) := by
        intro x hx; exact List.mem_cons_of_mem _ (h1 x hx)
      obtain ⟨h1', h2'⟩ := hlist _ ⟨k :: s.visited, s.result⟩ hs1 h2
      have hkfresh : k ∉ (visitList data n (presentParents data k)
          ⟨k :: s.visited, s.result⟩).result := by
        intro hmem
        rcases visitList_result_fresh data n _ ⟨k :: s.visited, s.result⟩ k hmem with hr | hv
        · exact hk (h1 k hr)
        · exact hv (List.mem_cons_self _ _)
      constructor
      · intro x hx
        rcases List.mem_append.1 hx with hx' | hx'
        · exact h1' x hx'
        · have hxk : x = k := List.mem_singleton.1 hx'
          subst hxk
          exact visitList_visited_mono data n _ ⟨x :: s.visited, s.result⟩
            (List.mem_cons_self _ _)
      · have hperm := List.perm_append_singleton k
          (visitList data n (presentParents data k) ⟨k :: s.visited, s.result⟩).result
        rw [hperm.nodup_iff, List.nodup_cons]
        exact ⟨hkfresh, h2'⟩

lemma visit_result_scope (data : List (String × MUnit)) :
    ∀ fuel k s, ∀ x ∈ (visit data fuel k s).result,
      x ∈ s.result ∨ x = k ∨ x ∈ keysOf data := by
  intro fuel
  induction fuel with
  | zero => intro k s x hx; exact Or.inl hx
  | succ n ih =>
    have hlist : ∀ ps s, (∀ p ∈ ps, p ∈ keysOf data) →
        ∀ x ∈ (visitList data n ps s).result, x ∈ s.result ∨ x ∈ keysOf data := by
      intro ps
      induction ps with
      | nil => intro s _ x hx; exact Or.inl hx
      | cons p t iht =>
        intro s hps x hx
        rcases iht (visit data n p s) (fun q hq => hps q (List.mem_cons_of_mem _ hq)) x hx with
          hr | hkey
        · rcases ih p s x hr with hr' | hk' | hkey'
          · exact Or.inl hr'
          · exact Or.inr (by rw [hk']; exact hps p (List.mem_cons_self _ _))
          · exact Or.inr hkey'
        · exact Or.inr hkey
    intro k s x hx
    by_cases hk : k ∈ s.visited
    · rw [visit_of_mem hk] at hx; exact Or.inl hx
    · rw [visit_succ_of_not_mem hk] at hx
      rcases List.mem_append.1 hx with hx' | hx'
      · rcases hlist _ ⟨k :: s.visited, s.result⟩
          (fun q hq => presentParents_sub_keys hq) x hx' with hr | hkey
        · exact Or.inl hr
        · exact Or.inr (Or.inr hkey)
      · exact Or.inr (Or.inl (List.mem_singleton.1 hx'))

/-! ### Top-level traversal: `keys.forEach(visit)` -/

/-- Folding the top-level `visit` over a list of keys. -/
def keysFold (data : List (String × MUnit)) (ks : List String) (s : SortState) : SortState :=
  ks.foldl (fun s k => visit data (data.length + 1) k s) s

lemma runVisit_eq : runVisit data = keysFold data (keysOf data) ⟨[], []⟩ := rfl

lemma keysFold_visited_mono (data : List (String × MUnit)) :
    ∀ ks s, s.visited ⊆ (keysFold data ks s).visited := by
  intro ks
  induction ks with
  | nil => intro s x hx; exact hx
  | cons k t ih =>
    intro s x hx
    exact ih _ (visit_visited_mono data (data.length + 1) k s hx)

lemma keysFold_props (data : List (String × MUnit)) :
    ∀ ks s, (∀ x ∈ ks, x ∈ keysOf data) →
      ResultSubVisited s → s.result.Nodup → VisitedInv s [] →
      (∀ x ∈ s.result, x ∈ keysOf data) →
      ResultSubVisited (keysFold data ks s) ∧ (keysFold data ks s).result.Nodup ∧
      VisitedInv (keysFold data ks s) [] ∧
      (∀ x ∈ (keysFold data ks s).result, x ∈ keysOf data) ∧
      (∀ k ∈ ks, k ∈ (keysFold data ks s).visited) := by
  intro ks
  induction ks with
  | nil =>
    intro s _ h1 h2 h3 h4
    exact ⟨h1, h2, h3, h4, by intro k hk; simp at hk⟩
  | cons k t ih =>
    intro s hks h1 h2 h3 h4
    have hkk : k ∈ keysOf data := hks k (List.mem_cons_self _ _)
    obtain ⟨h1', h2'⟩ := visit_rsv_nodup data (data.length + 1) k s h1 h2
    have h3' := visit_inv data (data.length + 1) k s [] h3
    have h4' : ∀ x ∈ (visit data (data.length + 1) k s).result, x ∈ keysOf data := by
      intro x hx
      rcases visit_result_scope data (data.length + 1) k s x hx with hr | hk' | hkey
      · exact h4 x hr
      · exact hk' ▸ hkk
      · exact hkey
    obtain ⟨g1, g2, g3, g4, g5⟩ := ih (visit data (data.length + 1) k s)
      (fun x hx => hks x (List.mem_cons_of_mem _ hx)) h1' h2' h3' h4'
    refine ⟨g1, g2, g3, g4, ?_⟩
    intro q hq
    rcases List.mem_cons.1 hq with rfl | hq'
    · exact keysFold_visited_mono data t _
        (visit_self_visited (Nat.succ_le_succ (Nat.zero_le _)))
    · exact g5 q hq'

lemma runVisit_props (data : List (String × MUnit)) :
    ResultSubVisited (runVisit data) ∧ (runVisit data).result.Nodup ∧
    VisitedInv (runVisit data) [] ∧
    (∀ x ∈ (runVisit data).result, x ∈ keysOf data) ∧
    (∀ k ∈ keysOf data, k ∈ (runVisit data).visited) := by
  rw [runVisit_eq]
  exact keysFold_props data (keysOf data) ⟨[], []⟩ (fun x hx => hx)
    (by intro x hx; simp at hx) (by simp) (by intro x hx; simp at hx)
    (by intro x hx; simp at hx)

lemma mem_runVisit_result_iff (data : List (String × MUnit)) (x : String) :
    x ∈ (runVisit data).result ↔ x ∈ keysOf data := by
  obtain ⟨_, _, h3, h4, h5⟩ := runVisit_props data
  constructor
  · exact h4 x
  · intro hx
    rcases h3 x (h5 x hx) with hr | hp
    · exact hr
    · simp at hp

lemma sortedKeys_perm (data : List (String × MUnit)) (hnd : (keysOf data).Nodup) :
    (sortedKeys data).Perm (keysOf data) := by
  obtain ⟨_, h2, _, _, _⟩ := runVisit_props data
  have hnds : (sortedKeys data).Nodup := by
    unfold sortedKeys
    exact (List.nodup_reverse).2 h2
  rw [List.perm_ext_iff_of_nodup hnds hnd]
  intro a
  unfold sortedKeys
  rw [List.mem_reverse]
  exact mem_runVisit_result_iff data a

lemma data_eq_keysMap (data : List (String × MUnit)) (hnd : (keysOf data).Nodup) :
    data = (keysOf data).map (fun k => (k, (lookupU data k).getD ⟨none⟩)) := by
  induction data with
  | nil => rfl
  | cons hd t ih =>
    obtain ⟨k, u⟩ := hd
    have hk : k ∉ keysOf t := by
      have := List.nodup_cons.1 hnd
      exact this.1
    have hndt : (keysOf t).Nodup := (List.nodup_cons.1 hnd).2
    have hkeys : keysOf ((k, u) :: t) = k :: keysOf t := rfl
    rw [hkeys, List.map_cons]
    congr 1
    · simp [lookupU]
    · have : ∀ a ∈ keysOf t,
          (fun k' => (k', (lookupU ((k, u) :: t) k').getD ⟨none⟩)) a =
          (fun k' => (k', (lookupU t k').getD ⟨none⟩)) a := by
        intro a ha
        have hne : k ≠ a := fun h => hk (h ▸ ha)
        simp [lookupU, if_neg hne]
      rw [List.map_congr_left this]
      exact ih hndt

/-- C3: for every input unit mapping — self-referencing, mutually-cyclic or
diamond graphs included — the sorter's output has exactly one entry per input
unit (no duplicates, no omissions), and revisiting an already-visited unit is
a no-op. -/
theorem sorter_one_entry_per_unit (data : List (String × MUnit))
    (hnd : (keysOf data).Nodup) :
    (generateSortedOutput data).Perm data ∧
    (∀ fuel k s, k ∈ s.visited → visit data fuel k s = s) := by
  constructor
  · unfold generateSortedOutput
    have hperm := (sortedKeys_perm data hnd).map
      (fun k => (k, (lookupU data k).getD ⟨none⟩))
    rw [← data_eq_keysMap data hnd] at hperm
    exact hperm
  · intro fuel k s h
    exact visit_of_mem h

/-- A graph with a self-loop and a two-cycle, used to witness C3. -/
def cyclicData : List (String × MUnit) :=
  [("a", ⟨some ["b"]⟩), ("b", ⟨some ["a"]⟩), ("s", ⟨some ["s"]⟩)]

/-- Witness for C3 at a concrete cyclic input. -/
theorem sorter_one_entry_per_unit_witness :
    (keysOf cyclicData).Nodup ∧ (generateSortedOutput cyclicData).Perm cyclicData :=
  ⟨by decide, (sorter_one_entry_per_unit cyclicData (by decide)).1⟩

/-! ### Ordering: descendants before ancestors -/

/-- Number of distinct keys not yet visited: the fuel budget still needed. -/
def ucount (data : List (String × MUnit)) (visited : List String) : Nat :=
  ((keysOf data).dedup.filter (fun x => decide (x ∉ visited))).length

lemma ucount_le_length (data : List (String × MUnit)) (visited : List String) :
    ucount data visited ≤ data.length := by
  calc ((keysOf data).dedup.filter (fun x => decide (x ∉ visited))).length
      ≤ (keysOf data).dedup.length := List.length_filter_le _ _
    _ ≤ (keysOf data).length := (List.dedup_sublist _).length_le
    _ = data.length := List.length_map _ _

lemma length_filter_mono {α : Type} {l : List α} {p q : α → Bool}
    (h : ∀ x ∈ l, p x = true → q x = true) :
    (l.filter p).length ≤ (l.filter q).length := by
  induction l with
  | nil => exact Nat.le_refl _
  | cons a t ih =>
    have ht : ∀ x ∈ t, p x = true → q x = true :=
      fun x hx => h x (List.mem_cons_of_mem _ hx)
    by_cases hp : p a = true
    · rw [List.filter_cons_of_pos hp, List.filter_cons_of_pos (h a (List.mem_cons_self _ _) hp)]
      exact Nat.succ_le_succ (ih ht)
    · rw [List.filter_cons_of_neg (by simpa using hp)]
      by_cases hq : q a = true
      · rw [List.filter_cons_of_pos hq]
        exact Nat.le_succ_of_le (ih ht)
      · rw [List.filter_cons_of_neg (by simpa using hq)]
        exact ih ht

lemma ucount_mono (data : List (String × MUnit)) {v1 v2 : List String}
    (h : ∀ x ∈ v1, x ∈ v2) : ucount data v2 ≤ ucount data v1 := by
  apply length_filter_mono
  intro x _ hx
  simp only [decide_eq_true_eq] at hx ⊢
  exact fun hm => hx (h x hm)

lemma ucount_cons {data : List (String × MUnit)} {k : String} {visited : List String}
    (hk : k ∈ keysOf data) (hnv : k ∉ visited) :
    ucount data (k :: visited) + 1 = ucount data visited := by
  have hnd : (keysOf data).dedup.Nodup := List.nodup_dedup _
  have hkl : k ∈ (keysOf data).dedup := List.mem_dedup.2 hk
  have hAnd : ((keysOf data).dedup.filter (fun x => decide (x ∉ visited))).Nodup :=
    hnd.filter _
  have hkA : k ∈ (keysOf data).dedup.filter (fun x => decide (x ∉ visited)) :=
    List.mem_filter.2 ⟨hkl, by simpa using hnv⟩
  have h1 : (keysOf data).dedup.filter (fun x => decide (x ∉ k :: visited)) =
      ((keysOf data).dedup.filter (fun x => decide (x ∉ visited))).filter
        (fun x => x != k) := by
    rw [List.filter_filter]
    apply List.filter_congr
    intro x _
    by_cases h1 : x = k <;> by_cases h2 : x ∈ visited <;>
      simp [h1, h2, List.mem_cons]
  have h2 : ((keysOf data).dedup.filter (fun x => decide (x ∉ visited))).filter
        (fun x => x != k) =
      ((keysOf data).dedup.filter (fun x => decide (x ∉ visited))).erase k :=
    (hAnd.erase_eq_filter k).symm
  unfold ucount
  rw [h1, h2]
  exact List.length_erase_add_one hkA

/-- Invariant: no element of the accumulated result is followed by one of its
own present parents. -/
def NoParentAfter (data : List (String × MUnit)) (res : List String) : Prop :=
  res.Pairwise (fun a b => ¬ InhRel data a b)

/-- Invariant: the present parents of every output element are already output. -/
def ParentsIn (data : List (String × MUnit)) (res : List String) : Prop :=
  ∀ a ∈ res, ∀ p, InhRel data a p → p ∈ res

lemma visit_ord (data : List (String × MUnit)) (hacyc : Acyclic data) :
    ∀ fuel k s pending,
      ucount data s.visited + 1 ≤ fuel →
      k ∈ keysOf data →
      (∀ q ∈ pending, Relation.TransGen (InhRel data) q k) →
      VisitedInv s pending →
      ResultSubVisited s →
      s.result.Nodup →
      NoParentAfter data s.result →
      ParentsIn data s.result →
      NoParentAfter data (visit data fuel k s).result ∧
      ParentsIn data (visit data fuel k s).result := by
  intro fuel
  induction fuel with
  | zero =>
    intro k s pending hf
    exact absurd hf (by omega)
  | succ n ih =>
    intro k s pending hf hk hpend hinv hrsv hnodup hnpa hpin
    by_cases hkv : k ∈ s.visited
    · rw [visit_of_mem hkv]; exact ⟨hnpa, hpin⟩
    · rw [visit_succ_of_not_mem hkv]
      have hinv1 : VisitedInv ⟨k :: s.visited, s.result⟩ (k :: pending) := by
        intro x hx
        rcases List.mem_cons.1 hx with rfl | hx'
        · exact Or.inr (List.mem_cons_self _ _)
        · rcases hinv x hx' with hr | hp
          · exact Or.inl hr
          · exact Or.inr (List.mem_cons_of_mem _ hp)
      have hrsv1 : ResultSubVisited ⟨k :: s.visited, s.result⟩ :=
        fun x hx => List.mem_cons_of_mem _ (hrsv x hx)
      have hfs1 : ucount data (k :: s.visited) + 1 ≤ n := by
        have := ucount_cons hk hkv
        omega
      have hpend1 : ∀ p ∈ presentParents data k, ∀ q ∈ k :: pending,
          Relation.TransGen (InhRel data) q p := by
        intro p hp q hq
        rcases List.mem_cons.1 hq with rfl | hq'
        · exact Relation.TransGen.single hp
        · exact Relation.TransGen.tail (hpend q hq') hp
      have FOLD : ∀ ps s', (∀ p ∈ ps, p ∈ presentParents data k) →
          ucount data s'.visited + 1 ≤ n →
          VisitedInv s' (k :: pending) → ResultSubVisited s' → s'.result.Nodup →
          NoParentAfter data s'.result → ParentsIn data s'.result →
          NoParentAfter data (visitList data n ps s').result ∧
          ParentsIn data (visitList data n ps s').result ∧
          VisitedInv (visitList data n ps s') (k :: pending) ∧
          ResultSubVisited (visitList data n ps s') ∧
          (visitList data n ps s').result.Nodup ∧
          (∀ p ∈ ps, p ∈ (visitList data n ps s').visited) := by
        intro ps
        induction ps with
        | nil =>
          intro s' _ _ g2 g3 g4 g5 g6
          exact ⟨g5, g6, g2, g3, g4, by intro p hp; simp at hp⟩
        | cons p t iht =>
          intro s' hps gf g2 g3 g4 g5 g6
          have hp : p ∈ presentParents data k := hps p (List.mem_cons_self _ _)
          have hkp : p ∈ keysOf data := presentParents_sub_keys hp
          have hstep := ih p s' (k :: pending) gf hkp
            (fun q hq => hpend1 p hp q hq) g2 g3 g4 g5 g6
          have g2' := visit_inv data n p s' (k :: pending) g2
          obtain ⟨g3', g4'⟩ := visit_rsv_nodup data n p s' g3 g4
          have gf' : ucount data (visit data n p s').visited + 1 ≤ n := by
            have := ucount_mono data (visit_visited_mono data n p s')
            omega
          obtain ⟨r1, r2, r3, r4, r5, r6⟩ := iht (visit data n p s')
            (fun q hq => hps q (List.mem_cons_of_mem _ hq)) gf' g2' g3' g4'
            hstep.1 hstep.2
          refine ⟨r1, r2, r3, r4, r5, ?_⟩
          intro q hq
          rcases List.mem_cons.1 hq with rfl | hq'
          · have hqv : q ∈ (visit data n q s').visited :=
              visit_self_visited (by omega)
            exact visitList_visited_mono data n t _ hqv
          · exact r6 q hq'
      obtain ⟨r1, r2, r3, r4, r5, r6⟩ := FOLD (presentParents data k)
        ⟨k :: s.visited, s.result⟩ (fun p hp => hp) hfs1 hinv1 hrsv1 hnodup hnpa hpin
      have hkfresh : k ∉ (visitList data n (presentParents data k)
          ⟨k :: s.visited, s.result⟩).result := by
        intro hmem
        rcases visitList_result_fresh data n _ ⟨k :: s.visited, s.result⟩ k hmem with hr | hv
        · exact hkv (hrsv k hr)
        · exact hv (List.mem_cons_self _ _)
      have hparents : ∀ p, InhRel data k p →
          p ∈ (visitList data n (presentParents data k)
            ⟨k :: s.visited, s.result⟩).result := by
        intro p hp
        have hpv := r6 p hp
        rcases r3 p hpv with hr | hpd
        · exact hr
        · rcases List.mem_cons.1 hpd with rfl | hpd'
          · exact absurd (Relation.TransGen.single hp) (hacyc p)
          · exact absurd (Relation.TransGen.tail (hpend p hpd') hp) (hacyc p)
      constructor
      · apply List.pairwise_append.2
        refine ⟨r1, List.pairwise_singleton _ _, ?_⟩
        intro a ha b hb
        rcases List.mem_singleton.1 hb with rfl
        intro hab
        exact hkfresh (r2 a ha b hab)
      · intro a ha p hp
        rcases List.mem_append.1 ha with ha' | ha'
        · exact List.mem_append_left _ (r2 a ha' p hp)
        · rcases List.mem_singleton.1 ha' with rfl
          exact List.mem_append_left _ (hparents p hp)

lemma runVisit_ord (data : List (String × MUnit)) (hacyc : Acyclic data) :
    NoParentAfter data (runVisit data).result ∧ ParentsIn data (runVisit data).result := by
  rw [runVisit_eq]
  have H : ∀ ks s, (∀ x ∈ ks, x ∈ keysOf data) →
      VisitedInv s [] → ResultSubVisited s → s.result.Nodup →
      NoParentAfter data s.result → ParentsIn data s.result →
      NoParentAfter data (keysFold data ks s).result ∧
      ParentsIn data (keysFold data ks s).result ∧
      VisitedInv (keysFold data ks s) [] ∧
      ResultSubVisited (keysFold data ks s) ∧
      (keysFold data ks s).result.Nodup := by
    intro ks
    induction ks with
    | nil => intro s _ g1 g2 g3 g4 g5; exact ⟨g4, g5, g1, g2, g3⟩
    | cons k t ih =>
      intro s hks g1 g2 g3 g4 g5
      have hk : k ∈ keysOf data := hks k (List.mem_cons_self _ _)
      have hf : ucount data s.visited + 1 ≤ data.length + 1 :=
        Nat.succ_le_succ (ucount_le_length data s.visited)
      have hord := visit_ord data hacyc (data.length + 1) k s [] hf hk
        (by intro q hq; simp at hq) g1 g2 g3 g4 g5
      have g1' := visit_inv data (data.length + 1) k s [] g1
      obtain ⟨g2', g3'⟩ := visit_rsv_nodup data (data.length + 1) k s g2 g3
      exact ih (visit data (data.length + 1) k s)
        (fun x hx => hks x (List.mem_cons_of_mem _ hx)) g1' g2' g3' hord.1 hord.2
  have := H (keysOf data) ⟨[], []⟩ (fun x hx => hx)
    (by intro x hx; simp at hx) (by intro x hx; simp at hx) (by simp)
    (by constructor) (by intro a ha; simp at ha)
  exact ⟨this.1, this.2.1⟩

/-- Core ordering fact: in the reversed output, every listed-and-present
parent of `k` occurs strictly after `k`. -/
lemma sorter_parent_after (data : List (String × MUnit)) (hacyc : Acyclic data)
    {pre post : List String} {k p : String}
    (hsplit : sortedKeys data = pre ++ k :: post)
    (hp : p ∈ presentParents data k) : p ∈ post := by
  obtain ⟨hnpa, hpin⟩ := runVisit_ord data hacyc
  have hres : (runVisit data).result = post.reverse ++ (k :: pre.reverse) := by
    have h1 : (runVisit data).result = (sortedKeys data).reverse := by
      unfold sortedKeys
      rw [List.reverse_reverse]
    rw [h1, hsplit]
    simp
  have hkres : k ∈ (runVisit data).result := by
    rw [hres]
    exact List.mem_append_right _ (List.mem_cons_self _ _)
  have hpres : p ∈ (runVisit data).result := hpin k hkres p hp
  rw [hres] at hpres hnpa
  rcases List.mem_append.1 hpres with hpost | hrest
  · exact List.mem_reverse.1 hpost
  · have hpair := (List.pairwise_append.1 hnpa).2.1
    rcases List.mem_cons.1 hrest with heq | hpre
    · subst heq
      exact absurd (Relation.TransGen.single hp) (hacyc _)
    · exact absurd hp ((List.pairwise_cons.1 hpair).1 p hpre)

/-- C1: for every acyclic inheritance graph, the mapping returned by
`#generateSortedOutput` places each unit before every parent listed in its
`inherits` array that exists in the input set: wherever the key sequence
splits as `pre ++ k :: post`, every listed-and-present parent of `k` lies in
`post` (descendants before ancestors). -/
theorem sorter_unit_before_present_parents (data : List (String × MUnit))
    (hacyc : Acyclic data) (pre post : List String) (k p : String)
    (hsplit : sortedKeys data = pre ++ k :: post)
    (hp : p ∈ presentParents data k) : p ∈ post :=
  sorter_parent_after data hacyc hsplit hp

/-- Witness for C1: in the diamond graph the parent `b` of `d` occurs after
`d` in the output sequence `["d", "c", "b", "a"]`. -/
theorem sorter_unit_before_present_parents_witness :
    Acyclic diamondData ∧ "b" ∈ (["c", "b", "a"] : List String) :=
  ⟨acyclic_of_parentRanked diamondData ["a", "b", "c", "d"] (by decide),
   sorter_unit_before_present_parents diamondData
     (acyclic_of_parentRanked diamondData ["a", "b", "c", "d"] (by decide))
     [] (["c", "b", "a"]) ("d") ("b") (by decide) (by decide)⟩

/-- The two-element chain used to refute C2 as stated: `a` inherits `b`. -/
def chainData : List (String × MUnit) :=
  [("a", ⟨some ["b"]⟩), ("b", ⟨none⟩)]

/-- C2 counterexample: the claim says the reversed list has ancestors first
and most-derived units last (base definitions before overrides).  For the
chain where `a` inherits `b`, the code returns `["a", "b"]`: the derived unit
`a` comes first and its ancestor `b` last, so the ancestor does not precede
the derived unit. -/
theorem sorter_ancestors_first_counterexample :
    sortedKeys chainData = ["a", "b"] ∧
    "b" ∈ presentParents chainData ("a") ∧
    ¬ (sortedKeys chainData).indexOf ("b") < (sortedKeys chainData).indexOf ("a") :=
  ⟨by decide, by decide, by decide⟩

/-- C2 amended: for acyclic graphs the reversed list has most-derived units
first and ancestors last — every strict ancestor of a unit occurs strictly
later in the returned sequence, so a consumer iterating in insertion order
sees overrides before the base definitions they refine. -/
theorem sorter_descendants_before_ancestors (data : List (String × MUnit))
    (hacyc : Acyclic data) (pre post : List String) (k a : String)
    (hsplit : sortedKeys data = pre ++ k :: post)
    (h : Relation.TransGen (InhRel data) k a) : a ∈ post := by
  induction h with
  | single hka => exact sorter_parent_after data hacyc hsplit hka
  | @tail b c hkb hba ihb =>
    obtain ⟨p1, p2, hpost⟩ := List.append_of_mem ihb
    have hsplit2 : sortedKeys data = (pre ++ k :: p1) ++ b :: p2 := by
      rw [hsplit, hpost]
      simp
    have hmem := sorter_parent_after data hacyc hsplit2 hba
    rw [hpost]
    exact List.mem_append_right _ (List.mem_cons_of_mem _ hmem)

/-- Witness for the amended C2: in the diamond graph, the strict ancestor `a`
of `d` occurs after `d`. -/
theorem sorter_descendants_before_ancestors_witness :
    Acyclic diamondData ∧ "a" ∈ (["c", "b", "a"] : List String) :=
  ⟨acyclic_of_parentRanked diamondData ["a", "b", "c", "d"] (by decide),
   sorter_descendants_before_ancestors diamondData
     (acyclic_of_parentRanked diamondData ["a", "b", "c", "d"] (by decide))
     [] (["c", "b", "a"]) ("d") ("a") (by decide)
     (Relation.TransGen.tail
       (Relation.TransGen.single (show InhRel diamondData ("d") ("b") by decide))
       (show InhRel diamondData ("b") ("a") by decide))⟩

/-! ## Character-list utilities shared by the reflection and injection models

Remote paths, file contents and the host document are modelled as `List Char`
(JavaScript strings). -/

/-- `needle` starts `hay` (models `String.prototype.startsWith` and the
anchoring of a literal at the current scan position). -/
def leadsWith : List Char → List Char → Bool
  | [], _ => true
  | _ :: _, [] => false
  | a :: as, b :: bs => a = b && leadsWith as bs

/-- `hay` ends with `suffix` (models `String.prototype.endsWith`). -/
def endsWith (sfx hay : List Char) : Bool :=
  leadsWith sfx.reverse hay.reverse

lemma leadsWith_iff {needle hay : List Char} :
    leadsWith needle hay = true ↔ ∃ t, hay = needle ++ t := by
  induction needle generalizing hay with
  | nil => simp [leadsWith]
  | cons a as ih =>
    cases hay with
    | nil => simp [leadsWith]
    | cons b bs =>
      rw [leadsWith, Bool.and_eq_true]
      constructor
      · rintro ⟨h1, h2⟩
        have hab : a = b := by simpa using h1
        obtain ⟨t, ht⟩ := ih.1 h2
        exact ⟨t, by rw [hab, ht]; rfl⟩
      · rintro ⟨t, ht⟩
        obtain ⟨rfl, rfl⟩ : b = a ∧ bs = as ++ t := by
          constructor <;> [exact (List.cons_eq_cons.1 ht).1;
            exact (List.cons_eq_cons.1 ht).2]
        exact ⟨by simp, ih.2 ⟨t, rfl⟩⟩

lemma leadsWith_append (needle t : List Char) :
    leadsWith needle (needle ++ t) = true :=
  leadsWith_iff.2 ⟨t, rfl⟩

lemma endsWith_iff {sfx hay : List Char} :
    endsWith sfx hay = true ↔ ∃ t, hay = t ++ sfx := by
  unfold endsWith
  rw [leadsWith_iff]
  constructor
  · rintro ⟨t, ht⟩
    refine ⟨t.reverse, ?_⟩
    have := congrArg List.reverse ht
    simpa using this
  · rintro ⟨t, rfl⟩
    exact ⟨t.reverse, by simp⟩

/-- Lexicographic comparison on char lists, modelling the default JavaScript
string comparison used by `Array.prototype.sort` without comparator. -/
def lexLe : List Char → List Char → Bool
  | [], _ => true
  | _ :: _, [] => false
  | a :: as, b :: bs =>
    if a < b then true else if b < a then false else lexLe as bs

/-- `path.split('/').pop()`: the characters after the last `'/'`. -/
def lastSegment (p : List Char) : List Char :=
  p.foldl (fun acc c => if c = '/' then [] else acc ++ [c]) []

/-- `/^\d/.test(path.split('/').pop())`: the file name starts with a digit. -/
def isDigitFile (p : List Char) : Bool :=
  match lastSegment p with
  | c :: _ => c.isDigit
  | [] => false

/-- Models `entries.sort((a, b) => isDigitFile(a) - isDigitFile(b))`:
ECMAScript `Array.prototype.sort` is stable and the comparator orders solely
by the boolean key `isDigitFile`, so the unique stable comparator-consistent
output keeps all non-digit-named entries first and all digit-named entries
last, each segment in its original relative order. -/
def sortByDigit (l : List (List Char)) : List (List Char) :=
  l.filter (fun e => !isDigitFile e) ++ l.filter (fun e => isDigitFile e)

/-! ## Reflection: remote tree walker (`Reflection.list`) -/

/-- An entry of a remote directory listing, tagged `file`, `dir`, or
something else (symlink, submodule). -/
inductive ItemType
  | file
  | dir
  | other
deriving DecidableEq

/-- A named entry of a directory listing. -/
structure Item where
  name : List Char
  type : ItemType
deriving DecidableEq

/-- The remote content store: directory listings and raw file contents keyed
by full path.  A missing key models a 404 ("not found" is a first-class
outcome). -/
structure Store where
  dirs : List (List Char × List Item)
  files : List (List Char × List Char)
deriving DecidableEq

/-- Association lookup on char-list keys. -/
def lookupC {α : Type} : List (List Char × α) → List Char → Option α
  | [], _ => none
  | (k, v) :: t, key => if k = key then some v else lookupC t key

/-- `Reflection.#fetchDirectory`: list `path/subPath` (just `path` when
`subPath` is empty, by JavaScript truthiness); `none` models a 404. -/
def fetchDirectory (store : Store) (root subPath : List Char) : Option (List Item) :=
  lookupC store.dirs (if subPath = [] then root else root ++ '/' :: subPath)

/-- `Reflection.#fetchReflection`: raw content of `path/filePath`;
`none` models a 404. -/
def fetchReflection (store : Store) (root filePath : List Char) : Option (List Char) :=
  lookupC store.files (root ++ '/' :: filePath)


/-- The `for (const item of items)` loop of `Reflection.list`, with the
recursive `list` call abstracted as `recur`: directories recurse into
`subPath/name`, files whose name ends with the extension contribute
`prefix/name`, anything else is skipped. -/
def listLoop (recur : List Char → List (List Char)) (root ext subPath : List Char) :
    List Item → List (List Char)
  | [] => []
  | item :: rest =>
    match item.type with
    | ItemType.dir =>
      recur (if subPath = [] then item.name else subPath ++ '/' :: item.name) ++
        listLoop recur root ext subPath rest
    | ItemType.file =>
      (if endsWith ext item.name then
        [(if subPath = [] then root else root ++ '/' :: subPath) ++ '/' :: item.name]
       else []) ++ listLoop recur root ext subPath rest
    | ItemType.other => listLoop recur root ext subPath rest

/-- `Reflection.list` with the remote recursion depth bounded by `fuel`.
On a 404 (`none`) with a non-empty `subPath` it probes `subPath + ext` as a
lone file (skipping empty content by the `if (content)` truthiness check);
otherwise it walks the items and sorts the collected entries so that
digit-prefixed file names come last. -/
def listF (store : Store) (root ext : List Char) : Nat → List Char → List (List Char)
  | 0, _ => []
  | fuel + 1, subPath =>
    match fetchDirectory store root subPath with
    | none =>
      if subPath ≠ [] then
        match fetchReflection store root (subPath ++ ext) with
        | some content =>
          if content = [] then [] else [root ++ '/' :: subPath ++ ext]
        | none => []
      else []
    | some items =>
      sortByDigit
        (listLoop (fun sub => listF store root ext fuel sub) root ext subPath items)

lemma mem_sortByDigit {l : List (List Char)} {e : List Char} :
    e ∈ sortByDigit l ↔ e ∈ l := by
  unfold sortByDigit
  constructor
  · intro h
    rcases List.mem_append.1 h with h' | h'
    · exact List.mem_of_mem_filter h'
    · exact List.mem_of_mem_filter h'
  · intro h
    by_cases hd : isDigitFile e
    · exact List.mem_append_right _ (List.mem_filter.2 ⟨h, by simp [hd]⟩)
    · exact List.mem_append_left _ (List.mem_filter.2 ⟨h, by simp [hd]⟩)

lemma sortByDigit_segregated (l : List (List Char)) :
    sortByDigit l =
      (sortByDigit l).filter (fun e => !isDigitFile e) ++
      (sortByDigit l).filter (fun e => isDigitFile e) := by
  unfold sortByDigit
  rw [List.filter_append, List.filter_append, List.filter_filter, List.filter_filter,
    List.filter_filter, List.filter_filter]
  have h1 : ∀ (m : List (List Char)),
      m.filter (fun a => !isDigitFile a && !isDigitFile a) =
        m.filter (fun e => !isDigitFile e) := by
    intro m; apply List.filter_congr; intro x _; rw [Bool.and_self]
  have h2 : ∀ (m : List (List Char)),
      m.filter (fun a => !isDigitFile a && isDigitFile a) = [] := by
    intro m
    rw [show (fun a : List Char => !isDigitFile a && isDigitFile a) = fun _ => false by
      funext a; cases h : isDigitFile a <;> simp [h]]
    exact List.filter_false m
  have h3 : ∀ (m : List (List Char)),
      m.filter (fun a => isDigitFile a && !isDigitFile a) = [] := by
    intro m
    rw [show (fun a : List Char => isDigitFile a && !isDigitFile a) = fun _ => false by
      funext a; cases h : isDigitFile a <;> simp [h]]
    exact List.filter_false m
  have h4 : ∀ (m : List (List Char)),
      m.filter (fun a => isDigitFile a && isDigitFile a) =
        m.filter (fun e => isDigitFile e) := by
    intro m; apply List.filter_congr; intro x _; rw [Bool.and_self]
  rw [h1, h2, h3, h4]
  simp

lemma listLoop_endsWith {recur : List Char → List (List Char)}
    {root ext subPath : List Char}
    (hR : ∀ sub e, e ∈ recur sub → endsWith ext e = true) :
    ∀ its e, e ∈ listLoop recur root ext subPath its → endsWith ext e = true := by
  intro its
  induction its with
  | nil => intro e he; simp [listLoop] at he
  | cons item rest ih =>
    intro e he
    rw [listLoop] at he
    split at he
    · rcases List.mem_append.1 he with h' | h'
      · exact hR _ e h'
      · exact ih e h'
    · rcases List.mem_append.1 he with h' | h'
      · split at h'
        · next hew =>
          obtain ⟨t, ht⟩ := endsWith_iff.1 hew
          rcases List.mem_singleton.1 h'
          rw [ht]
          exact endsWith_iff.2
            ⟨(if subPath = [] then root else root ++ '/' :: subPath) ++ '/' :: t, by simp⟩
        · simp at h'
      · exact ih e h'
    · exact ih e he

lemma listF_endsWith (store : Store) (root ext : List Char) :
    ∀ fuel subPath e, e ∈ listF store root ext fuel subPath →
      endsWith ext e = true := by
  intro fuel
  induction fuel with
  | zero => intro sp e he; simp [listF] at he
  | succ n ih =>
    intro sp e he
    rw [listF] at he
    split at he
    · split at he
      · split at he
        · split at he
          · simp at he
          · rcases List.mem_singleton.1 he
            exact endsWith_iff.2 ⟨root ++ '/' :: sp, by simp⟩
        · simp at he
      · simp at he
    · exact listLoop_endsWith (fun sub e' he' => ih sub e' he') _ e (mem_sortByDigit.1 he)

lemma getLast?_decomp : ∀ {hay : List Char} {c : Char},
    hay.getLast? = some c → ∃ t, hay = t ++ [c] := by
  intro hay
  induction hay with
  | nil => intro c h; simp at h
  | cons a t ih =>
    intro c h
    cases t with
    | nil =>
      simp at h
      exact ⟨[], by rw [h]; rfl⟩
    | cons b u =>
      rw [List.getLast?_cons_cons] at h
      obtain ⟨t', ht⟩ := ih h
      exact ⟨a :: t', by rw [ht]; rfl⟩

lemma endsWith_single {c : Char} {hay : List Char} :
    endsWith [c] hay = true ↔ hay.getLast? = some c := by
  constructor
  · intro h
    obtain ⟨t, rfl⟩ := endsWith_iff.1 h
    exact List.getLast?_concat _
  · intro h
    obtain ⟨t, rfl⟩ := getLast?_decomp h
    exact endsWith_iff.2 ⟨t, rfl⟩

lemma endsWith_slash_of {ext e : List Char} (hne : ext ≠ [])
    (h1 : endsWith ext e = true) (h2 : endsWith ['/'] e = true) :
    endsWith ['/'] ext = true := by
  obtain ⟨t1, rfl⟩ := endsWith_iff.1 h1
  have hl : (t1 ++ ext).getLast? = some '/' := endsWith_single.1 h2
  rw [List.getLast?_append_of_ne_nil t1 hne] at hl
  exact endsWith_single.2 hl

/-- C9: every entry returned by `Reflection.list` is a full file path ending
with the configured extension, and — provided the extension is non-empty and
does not itself end with the path separator — no entry ends with `'/'`;
consequently the `dirs` filter in `Reflection.get` is always empty. -/
theorem walker_emits_only_extension_files (store : Store) (root ext : List Char)
    (fuel : Nat) (subPath : List Char) (hne : ext ≠ [])
    (hsl : endsWith ['/'] ext = false) :
    (∀ e ∈ listF store root ext fuel subPath,
      endsWith ext e = true ∧ endsWith ['/'] e = false) ∧
    (listF store root ext fuel subPath).filter (fun e => endsWith ['/'] e) = [] := by
  have hmain : ∀ e ∈ listF store root ext fuel subPath,
      endsWith ext e = true ∧ endsWith ['/'] e = false := by
    intro e he
    have h1 := listF_endsWith store root ext fuel subPath e he
    refine ⟨h1, ?_⟩
    by_contra h2
    have h2' : endsWith ['/'] e = true := by
      cases h : endsWith ['/'] e
      · exact absurd h h2
      · rfl
    have := endsWith_slash_of hne h1 h2'
    rw [hsl] at this
    exact Bool.false_ne_true this
  refine ⟨hmain, ?_⟩
  rw [List.filter_eq_nil_iff]
  intro e he
  rw [(hmain e he).2]
  exact Bool.false_ne_true

/-- A small store witnessing C9: a root directory with a file and a nested
directory holding a date-named file. -/
def witnessStore : Store :=
  ⟨[(("doc".toList), [⟨"a".toList, ItemType.dir⟩, ⟨"notes.md".toList, ItemType.file⟩]),
    (("doc/a".toList), [⟨"2024-01-01.md".toList, ItemType.file⟩])], []⟩

/-- Witness for C9 on a concrete store and the configured `.md` extension. -/
theorem walker_emits_only_extension_files_witness :
    (".md".toList ≠ [] ∧ endsWith ['/'] (".md".toList) = false) ∧
    (listF witnessStore ("doc".toList) (".md".toList) 3 []).filter
      (fun e => endsWith ['/'] e) = [] :=
  ⟨⟨by decide, by decide⟩,
   (walker_emits_only_extension_files witnessStore ("doc".toList) (".md".toList) 3 []
     (by decide) (by decide)).2⟩

/-- Store refuting the "lexical order within segments" part of C5: the root
lists directory `a` before file `a!b.md` (alphabetical item order), yet the
full path `doc/a!b.md` sorts lexically before `doc/a/c.md` because
`'!' < '/'`. -/
def bangStore : Store :=
  ⟨[(("doc".toList), [⟨"a".toList, ItemType.dir⟩, ⟨"a!b.md".toList, ItemType.file⟩]),
    (("doc/a".toList), [⟨"c.md".toList, ItemType.file⟩])], []⟩

/-- C5 counterexample: both returned entries are in the non-digit segment,
but they appear in traversal order `[doc/a/c.md, doc/a!b.md]`, which is not
lexical order (`doc/a!b.md` is lexically smaller yet comes second). -/
theorem walker_lexical_order_counterexample :
    listF bangStore ("doc".toList) (".md".toList) 3 [] =
      [("doc/a/c.md".toList), ("doc/a!b.md".toList)] ∧
    isDigitFile ("doc/a/c.md".toList) = false ∧
    isDigitFile ("doc/a!b.md".toList) = false ∧
    lexLe ("doc/a/c.md".toList) ("doc/a!b.md".toList) = false ∧
    lexLe ("doc/a!b.md".toList) ("doc/a/c.md".toList) = true :=
  ⟨by decide, by decide, by decide, by decide, by decide⟩

/-- Store for the spec's two-file example: one directory holding
`2024-01-01.md` and `notes.md`. -/
def dateStore : Store :=
  ⟨[(("doc".toList), [⟨"2024-01-01.md".toList, ItemType.file⟩,
      ⟨"notes.md".toList, ItemType.file⟩])], []⟩

lemma singleton_segregated (x : List Char) :
    [x] = [x].filter (fun e => !isDigitFile e) ++ [x].filter (fun e => isDigitFile e) := by
  by_cases h : isDigitFile x <;> simp [h]

/-- C5 amended: the sequence returned by `Reflection.list` keeps every entry
whose file name does not start with a digit before every entry whose file
name starts with one, the sort being stable with respect to the traversal
(accumulation) order — not the lexical order — within each segment; the
spec's two-file example yields `[notes.md, 2024-01-01.md]`. -/
theorem walker_digit_segregation :
    (∀ store root ext fuel subPath,
      listF store root ext fuel subPath =
        (listF store root ext fuel subPath).filter (fun e => !isDigitFile e) ++
        (listF store root ext fuel subPath).filter (fun e => isDigitFile e)) ∧
    listF dateStore ("doc".toList) (".md".toList) 2 [] =
      [("doc/notes.md".toList), ("doc/2024-01-01.md".toList)] := by
  constructor
  · intro store root ext fuel subPath
    cases fuel with
    | zero => simp [listF]
    | succ n =>
      rw [listF]
      split
      · split
        · split
          · split
            · simp
            · exact singleton_segregated _
          · simp
        · simp
      · exact sortByDigit_segregated _
  · decide

/-! ## Reflection: latest-entry resolver (`Reflection.get`) and batch fetch -/

/-- The dispatch taken by `Reflection.get` after listing. -/
inductive GetStep
  | fetchFiles (toFetch : List (List Char))
  | recurseInto (sub : List Char) (latest : Bool)
  | guessLiteral (filePath : List Char)
  | noEntries
deriving DecidableEq

/-- The branch structure of `Reflection.get` as a function of the listing
`items`: when file entries exist they are fetched (`latest` keeps only
`files.slice(-1)`); otherwise a listing with directory markers and `latest`
recurses into the last marker `dirs[dirs.length - 1]`, passing the literal
`true` as the recursive call's `latest`; otherwise a non-empty `date` with an
empty listing is probed as a literal file path (extension appended when
missing); otherwise there are no entries. -/
def getStep (root ext : List Char) (items : List (List Char))
    (date : List Char) (latest : Bool) : GetStep :=
  let files := items.filter (fun e => endsWith ext e)
  let dirs := items.filter (fun e => endsWith ['/'] e)
  if files ≠ [] then
    GetStep.fetchFiles (if latest then files.drop (files.length - 1) else files)
  else if dirs ≠ [] ∧ latest = true then
    GetStep.recurseInto (((dirs.getLastD []).drop (root.length + 1)).dropLast) true
  else if date ≠ [] ∧ items = [] then
    GetStep.guessLiteral (if endsWith ext date then date else date ++ ext)
  else GetStep.noEntries

/-- A fetched reflection record: raw markdown, or the AST `md(content)` of
the external structured-markdown parser. -/
inductive Reflected (α : Type) where
  | raw (content : List Char)
  | parsed (doc : α)
deriving DecidableEq

/-- An element of the `entries` array returned by `Reflection.#fetchEntries`. -/
structure RefEntry (α : Type) where
  path : List Char
  reflection : Reflected α
deriving DecidableEq

/-- `Reflection.#fetchEntries`: fetch each path in order, pushing a record
only when content came back; a 404 (`none`) and — by JavaScript truthiness of
`if (content)` — an empty string are both skipped. -/
def fetchEntries {α : Type} (store : Store) (root : List Char)
    (md : List Char → α) (raw : Bool) : List (List Char) → List (RefEntry α)
  | [] => []
  | file :: rest =>
    match fetchReflection store root (file.drop (root.length + 1)) with
    | some content =>
      if content = [] then fetchEntries store root md raw rest
      else ⟨file, if raw then Reflected.raw content else Reflected.parsed (md content)⟩ ::
        fetchEntries store root md raw rest
    | none => fetchEntries store root md raw rest

/-- `Reflection.get`, with the directory-marker recursion bounded by `fuel`
and the remote walk of `Reflection.list` bounded by `listFuel`. -/
def getF {α : Type} (store : Store) (root ext : List Char) (md : List Char → α)
    (listFuel : Nat) : Nat → List Char → Bool → Bool → List (RefEntry α)
  | 0, _, _, _ => []
  | fuel + 1, date, latest, raw =>
    let items := listF store root ext listFuel date
    match getStep root ext items date latest with
    | GetStep.fetchFiles toFetch => fetchEntries store root md raw toFetch
    | GetStep.recurseInto sub l => getF store root ext md listFuel fuel sub l raw
    | GetStep.guessLiteral filePath => fetchEntries store root md raw [root ++ '/' :: filePath]
    | GetStep.noEntries => []

/-- C4 counterexample: on a listing consisting of the directory markers
`p/b/` and `p/a/` with no file entries and "latest" requested, the resolver
recurses into the positionally last marker `a` with `latest` still `true` —
not, as claimed, into the lexically last marker with `latest` forced off. -/
theorem resolver_latest_off_counterexample :
    getStep ("p".toList) (".md".toList) [("p/b/".toList), ("p/a/".toList)] [] true =
      GetStep.recurseInto ("a".toList) true ∧
    getStep ("p".toList) (".md".toList) [("p/b/".toList), ("p/a/".toList)] [] true ≠
      GetStep.recurseInto ("b".toList) false :=
  ⟨by decide, by decide⟩

/-- C4 amended: whenever the listing contains directory markers, no file
entries, and "latest only" was requested, `Reflection.get` recurses into the
positionally last directory marker of the listing (stripped of the root
prefix and trailing separator), passing `latest = true` for the recursive
call. -/
theorem resolver_recurses_with_latest_on (root ext : List Char)
    (items : List (List Char)) (date : List Char)
    (hfiles : items.filter (fun e => endsWith ext e) = [])
    (hdirs : items.filter (fun e => endsWith ['/'] e) ≠ []) :
    getStep root ext items date true =
      GetStep.recurseInto
        ((((items.filter (fun e => endsWith ['/'] e)).getLastD []).drop
          (root.length + 1)).dropLast) true := by
  unfold getStep
  simp only [hfiles]
  simp [hdirs]

/-- Witness for the amended C4 at a concrete directory-marker listing. -/
theorem resolver_recurses_with_latest_on_witness :
    ([("p/x/".toList)].filter (fun e => endsWith (".md".toList) e) = [] ∧
     [("p/x/".toList)].filter (fun e => endsWith ['/'] e) ≠ []) ∧
    getStep ("p".toList) (".md".toList) [("p/x/".toList)] [] true =
      GetStep.recurseInto
        (((([("p/x/".toList)].filter (fun e => endsWith ['/'] e)).getLastD []).drop
          (("p".toList).length + 1)).dropLast) true :=
  ⟨⟨by decide, by decide⟩,
   resolver_recurses_with_latest_on ("p".toList) (".md".toList) [("p/x/".toList)] []
     (by decide) (by decide)⟩

/-- Store with an empty-content file at `r/a.md` and nothing else,
refuting C6 as stated. -/
def emptyFileStore : Store :=
  ⟨[], [(("r/a.md".toList), [])]⟩

/-- C6 counterexample: the fetch of the first path succeeds (with empty
content) and the second is missing, yet the batch result is empty rather
than the claimed one-element list — `if (content)` also drops successfully
fetched empty files. -/
theorem fetcher_omits_counterexample :
    fetchReflection emptyFileStore ("r".toList) (("r/a.md".toList).drop 2) = some [] ∧
    fetchReflection emptyFileStore ("r".toList) (("r/b.md".toList).drop 2) = none ∧
    fetchEntries emptyFileStore ("r".toList) (fun c => c) true
      [("r/a.md".toList), ("r/b.md".toList)] = [] :=
  ⟨by decide, by decide, by decide⟩

/-- C6 amended: the batch fetch returns records in input order (its projected
path list is a sublist of the input), every record comes from a successful
fetch with non-empty content, every path that resolves to 404 — or to the
empty string, by JavaScript truthiness — is silently omitted, and for two
paths whose first has non-empty content and whose second is missing the
result is exactly the record of the first. -/
theorem fetcher_order_and_omission {α : Type} (store : Store) (root : List Char)
    (md : List Char → α) (raw : Bool) :
    (∀ paths, ((fetchEntries store root md raw paths).map RefEntry.path).Sublist paths) ∧
    (∀ paths ent, ent ∈ fetchEntries store root md raw paths →
      ∃ c, fetchReflection store root (ent.path.drop (root.length + 1)) = some c ∧
        c ≠ []) ∧
    (∀ paths f, f ∈ paths →
      fetchReflection store root (f.drop (root.length + 1)) = none →
      ∀ ent ∈ fetchEntries store root md raw paths, ent.path ≠ f) ∧
    (∀ p1 p2 c1, fetchReflection store root (p1.drop (root.length + 1)) = some c1 →
      c1 ≠ [] → fetchReflection store root (p2.drop (root.length + 1)) = none →
      fetchEntries store root md raw [p1, p2] =
        [⟨p1, if raw then Reflected.raw c1 else Reflected.parsed (md c1)⟩]) := by
  have hsub : ∀ paths,
      ((fetchEntries store root md raw paths).map RefEntry.path).Sublist paths := by
    intro paths
    induction paths with
    | nil => simp [fetchEntries]
    | cons file rest ih =>
      rw [fetchEntries]
      split
      · split
        · exact ih.cons _
        · exact ih.cons₂ _
      · exact ih.cons _
  have hsucc : ∀ paths ent, ent ∈ fetchEntries store root md raw paths →
      ∃ c, fetchReflection store root (ent.path.drop (root.length + 1)) = some c ∧
        c ≠ [] := by
    intro paths
    induction paths with
    | nil => intro ent h; simp [fetchEntries] at h
    | cons file rest ih =>
      intro ent h
      rw [fetchEntries] at h
      split at h
      · next c hc =>
        split at h
        · exact ih ent h
        · rcases List.mem_cons.1 h with rfl | h'
          · exact ⟨c, hc, by assumption⟩
          · exact ih ent h'
      · exact ih ent h
  refine ⟨hsub, hsucc, ?_, ?_⟩
  · intro paths f _ hnone ent hent heq
    obtain ⟨c, hc, _⟩ := hsucc paths ent hent
    rw [heq, hnone] at hc
    exact Option.noConfusion hc
  · intro p1 p2 c1 h1 hne h2
    simp [fetchEntries, h1, h2, hne]

/-- Store with content `hi` at `r/a.md` only, used to witness the amended C6. -/
def twoPathStore : Store :=
  ⟨[], [(("r/a.md".toList), ("hi".toList))]⟩

/-- Witness for the amended C6: with the second path missing, the batch
returns exactly the first path's record. -/
theorem fetcher_order_and_omission_witness :
    fetchReflection twoPathStore ("r".toList)
      (("r/b.md".toList).drop (("r".toList).length + 1)) = none ∧
    fetchEntries twoPathStore ("r".toList) (fun c => c) true
      [("r/a.md".toList), ("r/b.md".toList)] =
      [⟨("r/a.md".toList), Reflected.raw ("hi".toList)⟩] :=
  ⟨by decide,
   by
    have h := (fetcher_order_and_omission twoPathStore ("r".toList) (fun c => c) true).2.2.2
      ("r/a.md".toList) ("r/b.md".toList) ("hi".toList) (by decide) (by decide) (by decide)
    simpa using h⟩

/-! ## Injection into the host document (`OutputGenerator.#injectData`) -/

/-- First match of a literal `needle` in `hay`: `some (pre, post)` with
`hay = pre ++ needle ++ post` and `pre` shortest.  Models the anchoring of
the literal parts of the non-greedy delimiter regex. -/
def splitFirst (needle : List Char) : List Char → Option (List Char × List Char)
  | [] => if leadsWith needle [] then some ([], []) else none
  | c :: rest =>
    if leadsWith needle (c :: rest) then some ([], (c :: rest).drop needle.length)
    else (splitFirst needle rest).map (fun pr => (c :: pr.1, pr.2))

lemma splitFirst_eq {needle : List Char} :
    ∀ {hay pre post : List Char}, splitFirst needle hay = some (pre, post) →
      hay = pre ++ needle ++ post := by
  intro hay
  induction hay with
  | nil =>
    intro pre post h
    rw [splitFirst] at h
    split at h
    · next hl =>
      obtain ⟨t, ht⟩ := leadsWith_iff.1 hl
      obtain ⟨h1, h2⟩ := List.append_eq_nil.1 ht.symm
      obtain ⟨rfl, rfl⟩ := Prod.mk.injEq .. ▸ Option.some.injEq .. ▸ h
      simp [h1]
    · exact Option.noConfusion h
  | cons c rest ih =>
    intro pre post h
    rw [splitFirst] at h
    split at h
    · next hl =>
      obtain ⟨t, ht⟩ := leadsWith_iff.1 hl
      have hdrop : (c :: rest).drop needle.length = t := by
        rw [ht, List.drop_left]
      rw [hdrop] at h
      obtain ⟨rfl, rfl⟩ : pre = [] ∧ post = t := by
        have := Option.some.inj h
        exact ⟨congrArg Prod.fst this.symm, congrArg Prod.snd this.symm⟩
      simpa using ht
    · cases h' : splitFirst needle rest with
      | none => rw [h'] at h; exact Option.noConfusion h
      | some pr =>
        obtain ⟨a, b⟩ := pr
        rw [h'] at h
        obtain ⟨rfl, rfl⟩ : pre = c :: a ∧ post = b := by
          have := Option.some.inj h
          exact ⟨congrArg Prod.fst this.symm, congrArg Prod.snd this.symm⟩
        have := ih h'
        rw [this]
        rfl

lemma leadsWith_of_le {needle : List Char} :
    ∀ {u : List Char}, needle.length ≤ u.length →
      ∀ v, leadsWith needle (u ++ v) = leadsWith needle u := by
  induction needle with
  | nil => intro u _ v; rfl
  | cons a as ih =>
    intro u hu v
    cases u with
    | nil => simp at hu
    | cons b bs =>
      have hle : as.length ≤ bs.length := Nat.succ_le_succ_iff.1 (by simpa using hu)
      show (decide (a = b) && leadsWith as (bs ++ v)) = (decide (a = b) && leadsWith as bs)
      rw [ih hle v]

lemma splitFirst_self_append (needle t : List Char) :
    splitFirst needle (needle ++ t) = some ([], t) := by
  cases h : needle ++ t with
  | nil =>
    obtain ⟨h1, h2⟩ := List.append_eq_nil.1 h
    subst h1
    subst h2
    simp [splitFirst, leadsWith]
  | cons c rest =>
    have hl : leadsWith needle (c :: rest) = true := by
      rw [← h]
      exact leadsWith_append needle t
    have hdrop : (c :: rest).drop needle.length = t := by
      rw [← h, List.drop_left]
    rw [splitFirst, if_pos hl, hdrop]

lemma splitFirst_replace {needle : List Char} :
    ∀ {hay pre post : List Char}, splitFirst needle hay = some (pre, post) →
      ∀ post', splitFirst needle (pre ++ needle ++ post') = some (pre, post') := by
  intro hay
  induction hay with
  | nil =>
    intro pre post h post'
    rw [splitFirst] at h
    split at h
    · next hl =>
      have hpre : pre = [] := by
        have := Option.some.inj h
        exact (congrArg Prod.fst this.symm)
      subst hpre
      exact splitFirst_self_append needle post'
    · exact Option.noConfusion h
  | cons c rest ih =>
    intro pre post h post'
    rw [splitFirst] at h
    split at h
    · next hl =>
      have hpre : pre = [] := by
        have := Option.some.inj h
        exact (congrArg Prod.fst this.symm)
      subst hpre
      exact splitFirst_self_append needle post'
    · next hl =>
      cases h' : splitFirst needle rest with
      | none => rw [h'] at h; exact Option.noConfusion h
      | some pr =>
        obtain ⟨a, b⟩ := pr
        rw [h'] at h
        have hpair : (c :: a, b) = (pre, post) := by simpa using h
        have hpre : c :: a = pre := congrArg Prod.fst hpair
        subst hpre
        have hrest : rest = a ++ needle ++ b := splitFirst_eq h'
        have hfalse : leadsWith needle (c :: (a ++ needle ++ post')) = false := by
          have e1 : c :: (a ++ needle ++ post') = (c :: a ++ needle) ++ post' := by
            simp
          have e2 : c :: rest = (c :: a ++ needle) ++ b := by
            rw [hrest]
            simp
          have hlen : needle.length ≤ (c :: a ++ needle).length := by
            simp only [List.length_append, List.length_cons]
            omega
          rw [e1, leadsWith_of_le hlen post']
          rw [e2, leadsWith_of_le hlen b] at hl
          cases hll : leadsWith needle (c :: a ++ needle)
          · rfl
          · exact absurd hll hl
        have happ : (c :: a) ++ needle ++ post' = c :: (a ++ needle ++ post') := by
          simp
        have hgoal : splitFirst needle (c :: (a ++ needle ++ post')) =
            (splitFirst needle (a ++ needle ++ post')).map
              (fun pr => (c :: pr.1, pr.2)) := by
          rw [splitFirst, if_neg (by rw [hfalse]; exact Bool.false_ne_true)]
        rw [happ, hgoal, ih h' post']
        rfl


/-- `<!-- framework-${marker}-start -->`: capture group 1 of the pattern. -/
def startMarker (marker : List Char) : List Char :=
  ("<!-- framework-".toList) ++ marker ++ ("-start -->".toList)

/-- `<!-- framework-${marker}-end -->`: capture group 2 of the pattern. -/
def endMarker (marker : List Char) : List Char :=
  ("<!-- framework-".toList) ++ marker ++ ("-end -->".toList)

/-- The backquote character, written by code point. -/
def backquoteChar : Char := Char.ofNat 96

/-- The apostrophe character, written by code point. -/
def apostropheChar : Char := Char.ofNat 39

/-- ECMAScript `GetSubstitution` for a pattern with two capture groups that
always match: expand the replacement template, substituting `$$`, `$&`
(matched text), a dollar followed by the backquote character (text before
the match), a dollar followed by the apostrophe character (text after the
match), and `$1`/`$2` (the groups); a two-digit reference falls back to one
digit when it exceeds the group count, and an unresolvable reference stays
literal. -/
def getSubstitution (matched before after g1 g2 : List Char) :
    List Char → List Char
  | [] => []
  | [c] => if c = '$' then ['$'] else [c]
  | [c, d] =>
    if c = '$' then
      if d = '$' then ['$']
      else if d = '&' then matched
      else if d = backquoteChar then before
      else if d = apostropheChar then after
      else if d.isDigit then
        let n := d.toNat - 48
        if n = 1 then g1 else if n = 2 then g2 else ['$', d]
      else ['$', d]
    else [c, d]
  | c :: d :: d2 :: t =>
    if c = '$' then
      if d = '$' then '$' :: getSubstitution matched before after g1 g2 (d2 :: t)
      else if d = '&' then
        matched ++ getSubstitution matched before after g1 g2 (d2 :: t)
      else if d = backquoteChar then
        before ++ getSubstitution matched before after g1 g2 (d2 :: t)
      else if d = apostropheChar then
        after ++ getSubstitution matched before after g1 g2 (d2 :: t)
      else if d.isDigit then
        if d2.isDigit then
          let nn := 10 * (d.toNat - 48) + (d2.toNat - 48)
          if nn = 1 then g1 ++ getSubstitution matched before after g1 g2 t
          else if nn = 2 then g2 ++ getSubstitution matched before after g1 g2 t
          else
            let n := d.toNat - 48
            if n = 1 then g1 ++ getSubstitution matched before after g1 g2 (d2 :: t)
            else if n = 2 then g2 ++ getSubstitution matched before after g1 g2 (d2 :: t)
            else '$' :: d :: getSubstitution matched before after g1 g2 (d2 :: t)
        else
          let n := d.toNat - 48
          if n = 1 then g1 ++ getSubstitution matched before after g1 g2 (d2 :: t)
          else if n = 2 then g2 ++ getSubstitution matched before after g1 g2 (d2 :: t)
          else '$' :: d :: getSubstitution matched before after g1 g2 (d2 :: t)
      else '$' :: getSubstitution matched before after g1 g2 (d :: d2 :: t)
    else c :: getSubstitution matched before after g1 g2 (d :: d2 :: t)

/-- The inert text of the injected block once the group references are
expanded: a fenced json code block holding the payload, between newlines. -/
def renderedBlock (payload : List Char) : List Char :=
  ("\n```json\n".toList) ++ payload ++ ("\n```\n".toList)

/-- The replacement template built by `#injectData`:
`$1\n```json\n${JSON.stringify(data)}\n```\n$2`, with the serialized payload
opaque.  The `$`-references are expanded by `getSubstitution`, as
`String.replace` does. -/
def jsonBlock (payload : List Char) : List Char :=
  ("$1".toList) ++ renderedBlock payload ++ ("$2".toList)

/-- `content.replace(pattern, repl)` for the non-global, non-greedy pattern
`(start)[\s\S]*?(end)`: replace the span from the first start marker to the
earliest following end marker by the `$`-expanded replacement template; when
either marker is missing the content is returned unchanged. -/
def replaceFirstBlock (sm em repl content : List Char) : List Char :=
  match splitFirst sm content with
  | none => content
  | some (pre, rest) =>
    match splitFirst em rest with
    | none => content
    | some (mid, post) =>
      pre ++ getSubstitution (sm ++ mid ++ em) pre post sm em repl ++ post

/-- `OutputGenerator.#injectData` on the host document content: inject the
payload block between the `framework-${marker}` delimiters. -/
def injectData (marker payload content : List Char) : List Char :=
  replaceFirstBlock (startMarker marker) (endMarker marker) (jsonBlock payload) content

lemma replaceFirstBlock_of (repl : List Char) {sm em content pre rest mid post : List Char}
    (h1 : splitFirst sm content = some (pre, rest))
    (h2 : splitFirst em rest = some (mid, post)) :
    replaceFirstBlock sm em repl content =
      pre ++ getSubstitution (sm ++ mid ++ em) pre post sm em repl ++ post := by
  simp [replaceFirstBlock, h1, h2]

lemma getSubstitution_not_dollar {c : Char} (h : c ≠ '$')
    (matched before after g1 g2 s : List Char) :
    getSubstitution matched before after g1 g2 (c :: s) =
      c :: getSubstitution matched before after g1 g2 s := by
  cases s with
  | nil => simp [getSubstitution, h]
  | cons d s' =>
    cases s' with
    | nil => by_cases hd : d = '$' <;> simp [getSubstitution, h, hd]
    | cons d2 t => simp [getSubstitution, h]

lemma getSubstitution_append_dollarFree {s : List Char} (h : '$' ∉ s)
    (matched before after g1 g2 t : List Char) :
    getSubstitution matched before after g1 g2 (s ++ t) =
      s ++ getSubstitution matched before after g1 g2 t := by
  induction s with
  | nil => rfl
  | cons c s' ih =>
    have hc : c ≠ '$' := fun hcc => h (hcc ▸ List.mem_cons_self _ _)
    have hs' : '$' ∉ s' := fun hm => h (List.mem_cons_of_mem _ hm)
    rw [List.cons_append, getSubstitution_not_dollar hc, ih hs', List.cons_append]

lemma getSubstitution_jsonBlock {payload : List Char} (hpd : '$' ∉ payload)
    (matched before after g1 g2 : List Char) :
    getSubstitution matched before after g1 g2 (jsonBlock payload) =
      g1 ++ renderedBlock payload ++ g2 := by
  have hmid : '$' ∉ renderedBlock payload := by
    intro hmem
    unfold renderedBlock at hmem
    rcases List.mem_append.1 hmem with h' | h'
    · rcases List.mem_append.1 h' with h'' | h''
      · exact absurd h'' (by decide)
      · exact hpd h''
    · exact absurd h' (by decide)
  have hstep1 : ∀ tail : List Char,
      getSubstitution matched before after g1 g2 ('$' :: '1' :: '\n' :: tail) =
        g1 ++ getSubstitution matched before after g1 g2 ('\n' :: tail) :=
    fun tail => rfl
  have hstep2 : getSubstitution matched before after g1 g2 ('$' :: '2' :: []) =
      g2 := rfl
  have hform : jsonBlock payload =
      '$' :: '1' :: (renderedBlock payload ++ ['$', '2']) := rfl
  obtain ⟨T, hT⟩ : ∃ T, renderedBlock payload = '\n' :: T := ⟨_, rfl⟩
  have hcons : ('\n' :: T) ++ ['$', '2'] = '\n' :: (T ++ ['$', '2']) := rfl
  rw [hform, hT]
  calc getSubstitution matched before after g1 g2
        ('$' :: '1' :: (('\n' :: T) ++ ['$', '2']))
      = g1 ++ getSubstitution matched before after g1 g2 (('\n' :: T) ++ ['$', '2']) := by
        rw [hcons]
        exact hstep1 (T ++ ['$', '2'])
    _ = g1 ++ (('\n' :: T) ++ getSubstitution matched before after g1 g2 ['$', '2']) := by
        rw [getSubstitution_append_dollarFree (hT ▸ hmid)]
    _ = g1 ++ (('\n' :: T) ++ g2) := by
        rw [hstep2]
    _ = g1 ++ ('\n' :: T) ++ g2 := by
        rw [List.append_assoc]

/-- A host document holding just the delimiter pair for `memory`. -/
def hostDoc : List Char :=
  startMarker ("memory".toList) ++ endMarker ("memory".toList)

/-- A payload whose serialized form contains the end delimiter itself. -/
def evilPayload : List Char := endMarker ("memory".toList)

/-- A payload containing a `$2` group reference, which `String.replace`
expands to the end delimiter inside the injected block. -/
def dollarPayload : List Char := "a$2b".toList

/-- C7 counterexample: injection is not idempotent for every payload — a
payload containing the end delimiter makes the second pass match the copy
inside the previously injected block, and so does a payload containing the
two characters `$2`, which `$`-substitution expands to the end delimiter. -/
theorem injection_idempotence_counterexample :
    injectData ("memory".toList) evilPayload
        (injectData ("memory".toList) evilPayload hostDoc) ≠
      injectData ("memory".toList) evilPayload hostDoc ∧
    injectData ("memory".toList) dollarPayload
        (injectData ("memory".toList) dollarPayload hostDoc) ≠
      injectData ("memory".toList) dollarPayload hostDoc :=
  ⟨by decide, by decide⟩

/-- C7 amended: for a host document in which the matcher finds the delimiter
pair, and a payload that contains no `$` character (so `$`-substitution
leaves it inert) and whose rendered block does not contain (or create at its
seam) the end delimiter, injection replaces exactly the span strictly
between the first start marker and the earliest following end marker —
leaving the text before and after the pair byte-identical — and injecting
the same payload a second time yields a byte-identical document. -/
theorem injection_idempotent_and_local (marker payload content : List Char)
    (pre rest mid post : List Char)
    (hpd : '$' ∉ payload)
    (h1 : splitFirst (startMarker marker) content = some (pre, rest))
    (h2 : splitFirst (endMarker marker) rest = some (mid, post))
    (h3 : splitFirst (endMarker marker) (renderedBlock payload ++ endMarker marker) =
      some (renderedBlock payload, [])) :
    injectData marker payload content =
      pre ++ (startMarker marker ++ renderedBlock payload ++ endMarker marker) ++ post ∧
    injectData marker payload (injectData marker payload content) =
      injectData marker payload content := by
  have hfirst : injectData marker payload content =
      pre ++ (startMarker marker ++ renderedBlock payload ++ endMarker marker) ++ post := by
    rw [injectData, replaceFirstBlock_of (jsonBlock payload) h1 h2,
      getSubstitution_jsonBlock hpd]
  refine ⟨hfirst, ?_⟩
  rw [hfirst]
  have hshape : pre ++ (startMarker marker ++ renderedBlock payload ++ endMarker marker) ++
        post =
      pre ++ startMarker marker ++
        (renderedBlock payload ++ (endMarker marker ++ post)) := by
    simp
  have h1' := splitFirst_replace h1 (renderedBlock payload ++ (endMarker marker ++ post))
  have h2'' : splitFirst (endMarker marker)
      (renderedBlock payload ++ (endMarker marker ++ post)) =
      some (renderedBlock payload, post) := by
    have h := splitFirst_replace h3 post
    rw [List.append_assoc] at h
    exact h
  rw [hshape, injectData, replaceFirstBlock_of (jsonBlock payload) h1' h2'',
    getSubstitution_jsonBlock hpd]
  exact hshape

/-- A host document with text around the `memory` delimiter pair. -/
def demoDoc : List Char :=
  ("A ".toList) ++ startMarker ("memory".toList) ++ (" B ".toList) ++
    endMarker ("memory".toList) ++ (" C".toList)

/-- Witness for the amended C7 at a concrete document and payload. -/
theorem injection_idempotent_and_local_witness :
    ('$' ∉ ("42".toList) ∧
     splitFirst (endMarker ("memory".toList))
        (renderedBlock ("42".toList) ++ endMarker ("memory".toList)) =
      some (renderedBlock ("42".toList), [])) ∧
    injectData ("memory".toList) ("42".toList)
        (injectData ("memory".toList) ("42".toList) demoDoc) =
      injectData ("memory".toList) ("42".toList) demoDoc :=
  ⟨⟨by decide, by decide⟩,
   (injection_idempotent_and_local ("memory".toList) ("42".toList) demoDoc
     ("A ".toList) ((" B ".toList) ++ endMarker ("memory".toList) ++ (" C".toList))
     (" B ".toList) (" C".toList) (by decide) (by decide) (by decide) (by decide)).2⟩

/-! ## `OutputGenerator.generate`: validation and side-effect order -/

/-- A JavaScript value as far as the validation in `generate` observes it. -/
inductive JSVal where
  | jnull
  | jundefined
  | jbool (b : Bool)
  | jnum (n : Int)
  | jstr (s : List Char)
  | jobj (data : List (String × MUnit))
deriving DecidableEq

/-- `typeof`. -/
def jsTypeof : JSVal → String
  | JSVal.jnull => "object"
  | JSVal.jobj _ => "object"
  | JSVal.jundefined => "undefined"
  | JSVal.jbool _ => "boolean"
  | JSVal.jnum _ => "number"
  | JSVal.jstr _ => "string"

/-- `typeof x !== 'object' || x === null`: the rejection test of `generate`. -/
def checkInput (v : JSVal) : Bool :=
  decide (jsTypeof v ≠ "object") || decide (v = JSVal.jnull)

/-- Error kinds of the modelled `MemoryBuilderError`s thrown by `generate`. -/
inductive GenError where
  | INVALID_INSTRUCTIONS
  | INVALID_PROFILES
  | ZIP_CREATE_ERROR
deriving DecidableEq

/-- `{ name, version }` of a plugin. -/
structure PluginInfo where
  name : String
  version : String
deriving DecidableEq

/-- `{ plugin, skills }`: a registry entry mapping skill keys to skill names. -/
structure PluginItem where
  plugin : PluginInfo
  skills : List (String × String)
deriving DecidableEq

/-- The configuration slice `generate` reads: the plugin registry, which
skill source directories exist, which archiver invocations fail, and the
package output directory. -/
structure GenConfig where
  plugins : List (String × List PluginItem)
  existingSkills : List String
  tarFails : List String
  packageOutput : List Char
deriving DecidableEq

/-- `#findSkillByKey`: the first plugin item whose `skills` object holds a
truthy entry for `skillKey` (JavaScript truthiness drops an empty name). -/
def findSkillByKey (cfg : GenConfig) (skillKey : String) :
    Option (String × String × String) :=
  ((cfg.plugins.map Prod.snd).flatten).findSome? (fun it =>
    match it.skills.lookup skillKey with
    | some sn =>
      if sn = "" then none else some (it.plugin.name, it.plugin.version, sn)
    | none => none)

/-- The `{ [key]: sorted, version }` object built by `#generateSortedOutput`. -/
structure SortedOutput where
  key : String
  sorted : List (String × MUnit)
  version : String
deriving DecidableEq

/-- `#generateSortedOutput` with its wrapper: the traversal model above plus
the methodology plugin's version (the model defaults to `""` where the code
would crash on a missing methodology skill). -/
def generateSortedOutputC (cfg : GenConfig) (data : List (String × MUnit))
    (key : String) : SortedOutput :=
  ⟨key, generateSortedOutput data,
   match findSkillByKey cfg ("methodology") with
   | some info => info.2.1
   | none => ""⟩

/-- The machine state `generate` can modify: the SKILL.md host document and
the files of the package output directory. -/
structure GenState where
  skillMd : List Char
  files : List (List Char × List Char)
deriving DecidableEq

/-- Create or overwrite a file (an existing file at the path is removed
first, as `#createZip` does with `unlinkSync`). -/
def setFile (st : GenState) (path content : List Char) : GenState :=
  ⟨st.skillMd, st.files.filter (fun f => decide (f.1 ≠ path)) ++ [(path, content)]⟩

/-- Opaque stand-in for `JSON.stringify` of a sorted output; its byte format
is irrelevant to the claims. -/
def encodeSorted (so : SortedOutput) : List Char :=
  so.key.toList ++ so.version.toList ++
    ((so.sorted.map Prod.fst).map String.toList).flatten

/-- `#clearPayloadData`: replace the delimited span by the template
`$1\n$2`, i.e. blank the block between the markers. -/
def clearPayloadData (marker : List Char) (st : GenState) : GenState :=
  ⟨replaceFirstBlock (startMarker marker) (endMarker marker) ("$1\n$2".toList) st.skillMd,
   st.files⟩

/-- `#injectData` as a state update on the host document. -/
def injectPayload (marker : List Char) (so : SortedOutput) (st : GenState) : GenState :=
  ⟨injectData marker (encodeSorted so) st.skillMd, st.files⟩

/-- `#createZip`: `none` (no error) when the skill source directory is
absent, `ZIP_CREATE_ERROR` when the archiver fails, otherwise (re)create
`output/skillName.zip` (archive bytes abstracted as `[]`). -/
def createZip (cfg : GenConfig) (skillName : String) (st : GenState) :
    Except GenError (Option (List Char) × GenState) :=
  let zipPath := cfg.packageOutput ++ '/' :: skillName.toList ++ (".zip".toList)
  if skillName ∉ cfg.existingSkills then Except.ok (none, st)
  else if skillName ∈ cfg.tarFails then Except.error GenError.ZIP_CREATE_ERROR
  else Except.ok (some zipPath, setFile st zipPath [])

/-- Every skill name of every plugin item of every group, in registry order
(`Object.values` iteration). -/
def allSkills (cfg : GenConfig) : List String :=
  (((cfg.plugins.map Prod.snd).flatten).map (fun it => it.skills.map Prod.snd)).flatten

/-- The zip loop of `generate`: push each created package path, fail fast on
an archiver error (state at the throw is returned). -/
def zipAll (cfg : GenConfig) :
    List String → GenState → List (List Char) →
      Except GenError (List (List Char)) × GenState
  | [], st, paths => (Except.ok paths, st)
  | sn :: rest, st, paths =>
    match createZip cfg sn st with
    | Except.error e => (Except.error e, st)
    | Except.ok (none, st') => zipAll cfg rest st' paths
    | Except.ok (some zp, st') => zipAll cfg rest st' (paths ++ [zp])

/-- `#writeJsonFile`. -/
def writeJsonFile (cfg : GenConfig) (filename : List Char) (so : SortedOutput)
    (st : GenState) : List Char × GenState :=
  (cfg.packageOutput ++ '/' :: filename,
   setFile st (cfg.packageOutput ++ '/' :: filename) (encodeSorted so))

/-- Insertion step of the stable sort by default string comparison. -/
def insertLex (x : List Char) : List (List Char) → List (List Char)
  | [] => [x]
  | y :: t => if lexLe x y then x :: y :: t else y :: insertLex x t

/-- `paths.sort()`: ECMAScript default sort, by string comparison. -/
def sortPaths : List (List Char) → List (List Char)
  | [] => []
  | x :: t => insertLex x (sortPaths t)

/-- What `generate` hands to `generateOutput`: the sorted path manifest in
the container branch, nothing in the local branch (profile name, timestamp
and geolocation come from external collaborators outside this model). -/
structure GenResult where
  paths : Option (List (List Char))
deriving DecidableEq

/-- The post-validation body of `generate`: sort both namespaces, then either
the container-bootstrap branch (blank both payload blocks, zip every
registered skill, write the two JSON files, optionally inject, return the
sorted manifest) or the local branch (optionally inject). -/
def generateBody (cfg : GenConfig) (container isClaudeContainer skipInject : Bool)
    (idata pdata : List (String × MUnit)) (st : GenState) :
    Except GenError GenResult × GenState :=
  let instructionsData := generateSortedOutputC cfg idata ("instructions")
  let memoryData := generateSortedOutputC cfg pdata ("profiles")
  if container && !isClaudeContainer then
    let st2 := clearPayloadData ("memory".toList)
      (clearPayloadData ("instructions".toList) st)
    match zipAll cfg (allSkills cfg) st2 [] with
    | (Except.error e, st') => (Except.error e, st')
    | (Except.ok zips, st') =>
      let w1 := writeJsonFile cfg ("instructions.json".toList) instructionsData st'
      let w2 := writeJsonFile cfg ("memory.json".toList) memoryData w1.2
      let st3 := if skipInject then w2.2
        else injectPayload ("memory".toList) memoryData
          (injectPayload ("instructions".toList) instructionsData w2.2)
      (Except.ok ⟨some (sortPaths (zips ++ [w1.1, w2.1]))⟩, st3)
  else
    let st3 := if skipInject then st
      else injectPayload ("memory".toList) memoryData
        (injectPayload ("instructions".toList) instructionsData st)
    (Except.ok ⟨none⟩, st3)

/-- `OutputGenerator.generate` (lines 329–366): input validation precedes
everything else; the pair's second component is the machine state after the
call (unchanged when an error is thrown before any effect). -/
def generate (cfg : GenConfig) (container isClaudeContainer skipInject : Bool)
    (instructions profiles : JSVal) (st : GenState) :
    Except GenError GenResult × GenState :=
  if checkInput instructions then (Except.error GenError.INVALID_INSTRUCTIONS, st)
  else if checkInput profiles then (Except.error GenError.INVALID_PROFILES, st)
  else
    match instructions, profiles with
    | JSVal.jobj idata, JSVal.jobj pdata =>
      generateBody cfg container isClaudeContainer skipInject idata pdata st
    | _, _ => (Except.error GenError.INVALID_INSTRUCTIONS, st)

lemma checkInput_iff (v : JSVal) :
    checkInput v = true ↔ (v = JSVal.jnull ∨ jsTypeof v ≠ "object") := by
  cases v <;> simp [checkInput, jsTypeof]

lemma jobj_of_not_checkInput {v : JSVal} (h : ¬ checkInput v = true) :
    ∃ d, v = JSVal.jobj d := by
  cases v with
  | jobj d => exact ⟨d, rfl⟩
  | jnull => exact absurd (by simp [checkInput]) h
  | jundefined => exact absurd (by simp [checkInput, jsTypeof]) h
  | jbool b => exact absurd (by simp [checkInput, jsTypeof]) h
  | jnum n => exact absurd (by simp [checkInput, jsTypeof]) h
  | jstr s => exact absurd (by simp [checkInput, jsTypeof]) h

lemma zipAll_error_kind (cfg : GenConfig) :
    ∀ l st paths e st', zipAll cfg l st paths = (Except.error e, st') →
      e = GenError.ZIP_CREATE_ERROR := by
  intro l
  induction l with
  | nil =>
    intro st paths e st' h
    rw [zipAll] at h
    exact Except.noConfusion (congrArg Prod.fst h)
  | cons sn rest ih =>
    intro st paths e st' h
    rw [zipAll] at h
    split at h
    · next e' hcz =>
      have he : e' = e := by
        have := congrArg Prod.fst h
        simpa using this
      subst he
      unfold createZip at hcz
      split at hcz
      · exact Except.noConfusion hcz
      · split at hcz
        · simpa using (Except.error.inj hcz).symm
        · exact Except.noConfusion hcz
    · exact ih _ _ _ _ h
    · exact ih _ _ _ _ h

lemma generateBody_error_kind (cfg : GenConfig)
    (container isCC skipInject : Bool) (idata pdata : List (String × MUnit))
    (st : GenState) {e : GenError} {st' : GenState}
    (h : generateBody cfg container isCC skipInject idata pdata st =
      (Except.error e, st')) : e = GenError.ZIP_CREATE_ERROR := by
  unfold generateBody at h
  split at h
  · dsimp only [] at h
    rcases hz : zipAll cfg (allSkills cfg)
        (clearPayloadData ("memory".toList) (clearPayloadData ("instructions".toList) st)) []
      with ⟨exc, stz⟩
    rw [hz] at h
    cases exc with
    | error e2 =>
      have he : e2 = e := by
        have := congrArg Prod.fst h
        simpa using this
      subst he
      exact zipAll_error_kind cfg _ _ _ _ _ hz
    | ok zips =>
      have := congrArg Prod.fst h
      simp at this
  · have := congrArg Prod.fst h
    simp at this

/-- C8: `generate` raises an invalid-input error (`INVALID_INSTRUCTIONS` or
`INVALID_PROFILES`) if and only if the instructions argument or the profiles
argument is null or not an object; for non-null object inputs the validation
passes and generation proceeds (any later failure has a different kind). -/
theorem generate_invalid_iff (cfg : GenConfig)
    (container isCC skipInject : Bool) (i p : JSVal) (st : GenState) :
    ((generate cfg container isCC skipInject i p st).1 =
        Except.error GenError.INVALID_INSTRUCTIONS ∨
     (generate cfg container isCC skipInject i p st).1 =
        Except.error GenError.INVALID_PROFILES) ↔
    ((i = JSVal.jnull ∨ jsTypeof i ≠ "object") ∨
     (p = JSVal.jnull ∨ jsTypeof p ≠ "object")) := by
  by_cases hci : checkInput i = true
  · have hgen : generate cfg container isCC skipInject i p st =
        (Except.error GenError.INVALID_INSTRUCTIONS, st) := by
      unfold generate
      rw [if_pos hci]
    rw [hgen]
    constructor
    · intro _
      exact Or.inl ((checkInput_iff i).1 hci)
    · intro _
      exact Or.inl rfl
  · by_cases hcp : checkInput p = true
    · have hgen : generate cfg container isCC skipInject i p st =
          (Except.error GenError.INVALID_PROFILES, st) := by
        unfold generate
        rw [if_neg hci, if_pos hcp]
      rw [hgen]
      constructor
      · intro _
        exact Or.inr ((checkInput_iff p).1 hcp)
      · intro _
        exact Or.inr rfl
    · obtain ⟨di, hdi⟩ := jobj_of_not_checkInput hci
      obtain ⟨dp, hdp⟩ := jobj_of_not_checkInput hcp
      have hgen : generate cfg container isCC skipInject i p st =
          generateBody cfg container isCC skipInject di dp st := by
        unfold generate
        rw [if_neg hci, if_neg hcp, hdi, hdp]
      rw [hgen]
      constructor
      · intro h
        exfalso
        rcases hb : generateBody cfg container isCC skipInject di dp st with ⟨exc, stb⟩
        cases exc with
        | ok r =>
          rw [hb] at h
          rcases h with h | h <;> exact Except.noConfusion h
        | error e =>
          have hek := generateBody_error_kind cfg container isCC skipInject di dp st hb
          subst hek
          rw [hb] at h
          rcases h with h | h <;> simpa using Except.error.inj h
      · intro h
        exfalso
        rcases h with h | h
        · exact hci ((checkInput_iff i).2 h)
        · exact hcp ((checkInput_iff p).2 h)

/-- C10: when `generate` rejects its inputs, it does so before performing any
side effect — the host document and the package output files are exactly as
before the call — and the thrown error is one of the invalid-input kinds. -/
theorem generate_invalid_no_side_effects (cfg : GenConfig)
    (container isCC skipInject : Bool) (i p : JSVal) (st : GenState)
    (h : (i = JSVal.jnull ∨ jsTypeof i ≠ "object") ∨
      (p = JSVal.jnull ∨ jsTypeof p ≠ "object")) :
    (generate cfg container isCC skipInject i p st).2 = st ∧
    ∃ e, (generate cfg container isCC skipInject i p st).1 = Except.error e ∧
      (e = GenError.INVALID_INSTRUCTIONS ∨ e = GenError.INVALID_PROFILES) := by
  by_cases hci : checkInput i = true
  · have hgen : generate cfg container isCC skipInject i p st =
        (Except.error GenError.INVALID_INSTRUCTIONS, st) := by
      unfold generate
      rw [if_pos hci]
    rw [hgen]
    exact ⟨rfl, GenError.INVALID_INSTRUCTIONS, rfl, Or.inl rfl⟩
  · have hcp : checkInput p = true := by
      rcases h with h' | h'
      · exact absurd ((checkInput_iff i).2 h') hci
      · exact (checkInput_iff p).2 h'
    have hgen : generate cfg container isCC skipInject i p st =
        (Except.error GenError.INVALID_PROFILES, st) := by
      unfold generate
      rw [if_neg hci, if_pos hcp]
    rw [hgen]
    exact ⟨rfl, GenError.INVALID_PROFILES, rfl, Or.inr rfl⟩

/-- A minimal configuration and state for the C10 witness. -/
def cfg0 : GenConfig := ⟨[], [], [], ("out".toList)⟩

/-- Host state for the C10 witness. -/
def st0 : GenState := ⟨("x".toList), []⟩

/-- Witness for C10: a number passed as instructions is rejected with the
state untouched. -/
theorem generate_invalid_no_side_effects_witness :
    (JSVal.jnum 3 = JSVal.jnull ∨ jsTypeof (JSVal.jnum 3) ≠ "object") ∧
    (generate cfg0 true false false (JSVal.jnum 3) (JSVal.jobj []) st0).2 = st0 :=
  ⟨Or.inr (by decide),
   (generate_invalid_no_side_effects cfg0 true false false (JSVal.jnum 3)
     (JSVal.jobj []) st0 (Or.inl (Or.inr (by decide)))).1⟩
